import Mathlib

/-!
# Verification of the routing-cycle-detector pipeline

A shallow embedding of the core of the `routing-cycle-detector` repository:

* `src/routing_cycle_detector/graph/cycle.py` — the two cycle-length
  algorithms (`find_cycle_functional`, `find_cycle_dfs`) and the
  dispatcher `find_longest_cycle`;
* `src/routing_cycle_detector/graph/build.py` — `build_grouped_adjacency`;
* `src/routing_cycle_detector/graph/parse.py` — `parse_bucket_line`;
* `src/routing_cycle_detector/graph/process_bucket.py` — `process_bucket`;
* `src/routing_cycle_detector/partition/partition.py` — `partition_to_buckets`
  (bucket files are modelled by their contents, a function from bucket index
  to the list of appended lines; the LRU handle cache is content-transparent
  because handles are opened in append mode);
* `src/routing_cycle_detector/partition/cache.py` — the LRU file-handle cache
  (modelled by the ordered list of open bucket indices);
* `src/graph.py` — the monolithic `process_bucket` (namespace `Monolithic`);
* `src/routing_cycle_detector/solver/solve.py` — the bucket-count validation.

Python `dict`s are modelled as association lists in insertion order and
Python `set`s as duplicate-free lists in insertion order; byte strings are
`List Nat`.  The unbounded recursion/loops of the two cycle searches are
modelled with an explicit fuel parameter that is provably never exhausted
for the initial fuel supplied by the top-level entry points.
-/

set_option maxRecDepth 100000

namespace RoutingCycle

/-! ## Generic fold lemmas -/

theorem foldl_invariant {α γ : Type} (P : γ → Prop) (f : γ → α → γ) :
    ∀ (l : List α) (init : γ), P init → (∀ a x, x ∈ l → P a → P (f a x)) →
      P (l.foldl f init)
  | [], _, h, _ => h
  | x :: xs, init, h, hstep =>
    foldl_invariant P f xs (f init x) (hstep init x (List.mem_cons_self x xs) h)
      (fun a y hy ha => hstep a y (List.mem_cons_of_mem x hy) ha)

theorem le_foldl_of_le {α : Type} (f : Nat → α → Nat)
    (hge : ∀ a x, a ≤ f a x) :
    ∀ (l : List α) (init : Nat), init ≤ l.foldl f init
  | [], _ => le_refl _
  | x :: xs, init => le_trans (hge init x) (le_foldl_of_le f hge xs (f init x))

theorem foldl_le_foldl {α : Type} (f : Nat → α → Nat)
    (hmono : ∀ a b x, a ≤ b → f a x ≤ f b x) :
    ∀ (l : List α) {a b : Nat}, a ≤ b → l.foldl f a ≤ l.foldl f b
  | [], _, _, h => h
  | x :: xs, a, b, h => foldl_le_foldl f hmono xs (hmono a b x h)

/-- If some element of the list already pushes the accumulator above `t`,
the whole (monotone, inflationary) fold is above `t`. -/
theorem le_foldl_of_mem {α : Type} (f : Nat → α → Nat)
    (hge : ∀ a x, a ≤ f a x) (hmono : ∀ a b x, a ≤ b → f a x ≤ f b x) :
    ∀ (l : List α) (init : Nat) (x : α), x ∈ l → ∀ t, t ≤ f init x →
      t ≤ l.foldl f init
  | [], _, _, hx, _, _ => absurd hx (List.not_mem_nil _)
  | y :: ys, init, x, hx, t, ht => by
    rcases List.mem_cons.1 hx with rfl | hx'
    · exact le_trans ht (le_trans (le_refl _)
        (le_trans (le_refl _) (le_foldl_of_le f hge ys (f init x))))
    · exact le_foldl_of_mem f hge hmono ys (f init y) x hx' t
        (le_trans ht (hmono init (f init y) x (hge init y)))

/-! ## Adjacency maps

`AdjacencyMap` models the Python `dict[bytes, set[bytes]]`: an association
list in insertion order whose values are duplicate-free lists. -/

abbrev Adj (β : Type) := List (β × List β)

/-- `adj.get(node, set())`: the destination set of `x`, empty when absent. -/
def adjGet {β : Type} [DecidableEq β] : Adj β → β → List β
  | [], _ => []
  | (k, ds) :: rest, x => if k = x then ds else adjGet rest x

/-- Well-formedness inherited from Python `dict`/`set`: keys are distinct and
each destination set is duplicate-free. -/
def AdjWF {β : Type} (adj : Adj β) : Prop :=
  (adj.map Prod.fst).Nodup ∧ ∀ p ∈ adj, (p.2 : List β).Nodup

instance {β : Type} [DecidableEq β] (adj : Adj β) : Decidable (AdjWF adj) := by
  unfold AdjWF; infer_instance

/-- A directed edge of the graph. -/
def EdgeStep {β : Type} [DecidableEq β] (adj : Adj β) (a b : β) : Prop :=
  b ∈ adjGet adj a

instance {β : Type} [DecidableEq β] (adj : Adj β) (a b : β) :
    Decidable (EdgeStep adj a b) := by
  unfold EdgeStep; infer_instance

/-- `c` is a simple directed cycle of the graph: at least two distinct nodes,
consecutive edges, and an edge from the last node back to the first.  The
length of the cycle is `c.length`. -/
def IsCycle {β : Type} [DecidableEq β] (adj : Adj β) (c : List β) : Prop :=
  2 ≤ c.length ∧ c.Nodup ∧ List.Chain' (EdgeStep adj) c ∧
    ∀ a ∈ c.getLast?, ∀ b ∈ c.head?, EdgeStep adj a b

theorem adjGet_mem {β : Type} [DecidableEq β] :
    ∀ (adj : Adj β) (x : β), adjGet adj x ≠ [] → (x, adjGet adj x) ∈ adj
  | [], _, h => absurd rfl h
  | (k, ds) :: rest, x, h => by
    by_cases hk : k = x
    · subst hk; simp [adjGet] at h ⊢
    · simp only [adjGet, if_neg hk] at h ⊢
      exact List.mem_cons_of_mem _ (adjGet_mem rest x h)

theorem mem_keys_of_adjGet_ne_nil {β : Type} [DecidableEq β]
    (adj : Adj β) (x : β) (h : adjGet adj x ≠ []) : x ∈ adj.map Prod.fst := by
  have := adjGet_mem adj x h
  exact List.mem_map.2 ⟨(x, adjGet adj x), this, rfl⟩

theorem edgeStep_src_mem_keys {β : Type} [DecidableEq β]
    {adj : Adj β} {a b : β} (h : EdgeStep adj a b) : a ∈ adj.map Prod.fst := by
  apply mem_keys_of_adjGet_ne_nil
  intro hnil
  rw [EdgeStep, hnil] at h
  exact List.not_mem_nil b h

/-! ## The general-graph algorithm: `find_cycle_dfs`

Faithful to `cycle.py` lines 78–121.  The recursion of the Python `dfs`
is modelled with a fuel argument; the top level supplies fuel equal to the
number of nodes with outgoing edges, which is never exhausted because the
path grows strictly inside the index-restricted node set. -/

/-- The body of the Python `dfs` closure: iterate over `adj.get(node, set())`,
record `depth + 1` when the neighbor closes the cycle back to `start`, and
recurse into unvisited neighbors of sorted index at least `start_idx`. -/
def dfsAux {β : Type} [DecidableEq β] (adj : Adj β) (idxf : β → Option Nat)
    (start : β) (startIdx : Nat) :
    Nat → β → List β → Nat → Nat → Nat
  | 0, _, _, _, longest => longest
  | fuel + 1, node, path, depth, longest =>
    (adjGet adj node).foldl
      (fun acc neighbor =>
        if neighbor = start ∧ 1 ≤ depth then
          if acc < depth + 1 then depth + 1 else acc
        else if neighbor ∈ path then acc
        else
          match idxf neighbor with
          | some j =>
            if startIdx ≤ j then
              dfsAux adj idxf start startIdx fuel neighbor (neighbor :: path)
                (depth + 1) acc
            else acc
          | none => acc)
      longest

/-- The outer loop `for i, start_node in enumerate(nodes_sorted)`. -/
def dfsStarts {β : Type} [DecidableEq β] (adj : Adj β) (idxf : β → Option Nat)
    (fuel : Nat) : List β → Nat → Nat → Nat
  | [], _, longest => longest
  | s :: rest, i, longest =>
    dfsStarts adj idxf fuel rest (i + 1) (dfsAux adj idxf s i fuel s [s] 0 longest)

/-- `find_cycle_dfs` from `cycle.py`: sort the nodes that have outgoing
edges, give each its sorted index, and run the pruned DFS from every start. -/
def find_cycle_dfs {β : Type} [DecidableEq β] [LinearOrder β]
    (adj : Adj β) : Nat :=
  let nodes := adj.map Prod.fst
  if nodes.isEmpty then 0
  else
    let nodesSorted := nodes.insertionSort (· ≤ ·)
    let idxf : β → Option Nat := fun b =>
      if b ∈ nodesSorted then some (nodesSorted.indexOf b) else none
    dfsStarts adj idxf nodesSorted.length nodesSorted 0 0

example : find_cycle_dfs [(0, [1]), (1, [2]), (2, [0])] = 3 := by decide

example : find_cycle_dfs [(0, [1, 2]), (1, [0]), (2, [3]), (3, [0])] = 3 := by
  decide

example : find_cycle_dfs [(0, [0])] = 0 := by decide

example : find_cycle_dfs [(0, [1]), (1, [2])] = 0 := by decide

/-! ## The functional-graph algorithm: `find_cycle_functional`

Faithful to `cycle.py` lines 25–75.  The successor map `next_node` is an
association list, the per-walk `path_order` dict is an association list of
(node, position) pairs, and the unbounded `while` loop is modelled with a
fuel argument; the top level supplies one more unit of fuel than there are
universe nodes, which is provably never exhausted. -/

/-- `next_node.get(current)` over the association list built by
`find_cycle_functional`. -/
def nextGet {β : Type} [DecidableEq β] : List (β × β) → β → Option β
  | [], _ => none
  | (k, d) :: rest, x => if k = x then some d else nextGet rest x

/-- `path_order` lookup: the position stored for `x`, if any. -/
def poLookup {β : Type} [DecidableEq β] : List (β × Nat) → β → Option Nat
  | [], _ => none
  | (k, p) :: rest, x => if k = x then some p else poLookup rest x

/-- `next_node = {src: next(iter(dests)) for src, dests in adj.items() if dests}`. -/
def buildNext {β : Type} (adj : Adj β) : List (β × β) :=
  adj.filterMap (fun p => p.2.head?.map (fun d => (p.1, d)))

/-- `all_nodes = set(next_node.keys()) ∪ set(next_node.values())`. -/
def allNodes {β : Type} [DecidableEq β] (nx : List (β × β)) : List β :=
  (nx.map Prod.fst ++ nx.map Prod.snd).dedup

/-- One walk of `find_cycle_functional`: follow successors, recording each
node's position in `path_order`, until the current node is absent, globally
visited, or already on the path (a cycle of length `pos - path_order[cur]`).
Returns the raw detected value (0 if none) and the walk's `path_order` keys. -/
def walkAux {β : Type} [DecidableEq β] (nx : List (β × β)) (gvis : List β) :
    Nat → Option β → List (β × Nat) → Nat → Nat × List β
  | 0, _, po, _ => (0, po.map Prod.fst)
  | _ + 1, none, po, _ => (0, po.map Prod.fst)
  | fuel + 1, some cur, po, pos =>
    if cur ∈ gvis then (0, po.map Prod.fst)
    else
      match poLookup po cur with
      | some p => (pos - p, po.map Prod.fst)
      | none => walkAux nx gvis fuel (nextGet nx cur) ((cur, pos) :: po) (pos + 1)

/-- The outer loop `for start in all_nodes`, carrying `globally_visited` and
the running `longest`; a detected value is kept only when it is at least 2
and beats the running longest. -/
def funcLoop {β : Type} [DecidableEq β] (nx : List (β × β)) (fuel : Nat) :
    List β → List β → Nat → Nat
  | [], _, longest => longest
  | start :: rest, gvis, longest =>
    if start ∈ gvis then funcLoop nx fuel rest gvis longest
    else
      let r := walkAux nx gvis fuel (some start) [] 0
      let longest' := if 2 ≤ r.1 ∧ longest < r.1 then r.1 else longest
      funcLoop nx fuel rest (gvis ++ r.2) longest'

/-- `find_cycle_functional` from `cycle.py`: O(N) cycle detection for
functional graphs (out-degree at most 1). -/
def find_cycle_functional {β : Type} [DecidableEq β] (adj : Adj β) : Nat :=
  let nx := buildNext adj
  if nx.isEmpty then 0
  else funcLoop nx ((allNodes nx).length + 1) (allNodes nx) [] 0

example : find_cycle_functional [(0, [1]), (1, [2]), (2, [0])] = 3 := by decide

example : find_cycle_functional [(0, [0])] = 0 := by decide

example : find_cycle_functional [(5, [1]), (1, [2]), (2, [1])] = 2 := by decide

example : find_cycle_functional [(0, [1]), (1, [2])] = 0 := by decide

/-- `find_longest_cycle` from `cycle.py`: dispatch on the classification. -/
def find_longest_cycle {β : Type} [DecidableEq β] [LinearOrder β]
    (adj : Adj β) (is_functional : Bool) : Nat :=
  if adj.isEmpty then 0
  else if is_functional then find_cycle_functional adj
  else find_cycle_dfs adj

/-! ## Byte strings, line trimming and splitting

Byte strings are `List Nat` (each element one byte).  `rstripNL` models
`line.rstrip(b"\n\r")`, `splitLimit` models `line.split(b"|", 3)`. -/

abbrev ByteStr := List Nat

/-- `line.rstrip(b"\n\r")`: drop trailing LF/CR bytes. -/
def rstripNL (l : ByteStr) : ByteStr :=
  (l.reverse.dropWhile (fun b => b = 10 ∨ b = 13)).reverse

/-- Split off everything before the first occurrence of `sep`, when present. -/
def splitFirst (sep : Nat) : ByteStr → Option (ByteStr × ByteStr)
  | [] => none
  | b :: rest =>
    if b = sep then some ([], rest)
    else (splitFirst sep rest).map (fun p => (b :: p.1, p.2))

/-- `bytes.split(sep, maxsplit)`: split on `sep` at most `maxsplit` times. -/
def splitLimit (sep : Nat) : Nat → ByteStr → List ByteStr
  | 0, l => [l]
  | n + 1, l =>
    match splitFirst sep l with
    | none => [l]
    | some (pre, post) => pre :: splitLimit sep n post

example : splitLimit 124 3 [65, 124, 66, 124, 67, 124, 68, 124, 69] =
    [[65], [66], [67], [68, 124, 69]] := by decide

example : splitLimit 124 3 [65, 124, 66] = [[65], [66]] := by decide

/-! ## CRC-32 (IEEE), as computed by `zlib.crc32` -/

/-- One bit-step of the reflected CRC-32 computation with polynomial
`0xEDB88320`. -/
def crc32Round (c : Nat) : Nat :=
  if c % 2 = 1 then (c / 2) ^^^ 0xEDB88320 else c / 2

/-- Absorb one byte into the running CRC. -/
def crc32UpdateByte (c b : Nat) : Nat := crc32Round^[8] (c ^^^ b)

/-- `zlib.crc32(data)`: initial value `0xFFFFFFFF`, final XOR `0xFFFFFFFF`. -/
def crc32 (data : ByteStr) : Nat :=
  (data.foldl crc32UpdateByte 0xFFFFFFFF) ^^^ 0xFFFFFFFF

example : crc32 [] = 0 := by decide

example : crc32 [97] = 3904355907 := by decide

example : crc32 [67, 76, 77, 48, 48, 49, 124, 50, 48, 48] = 3556305078 := by
  decide

/-! ## Partitioning: `partition_to_buckets`

`partition.py` lines 27–49.  The bucket files are modelled by their contents:
a function from bucket index to the list of lines appended so far.  The LRU
handle cache is transparent at this level because handles are opened in
append-binary mode, so `cache.write(idx, data)` always appends `data` to
bucket `idx` (the cache itself is modelled separately below). -/

structure PartitionStats where
  lines_read : Nat := 0
  empty_lines : Nat := 0
  malformed_lines : Nat := 0
  lines_written : Nat := 0
deriving DecidableEq, Repr

/-- The state of the partition pass: bucket contents plus counters. -/
abbrev PartState := (Nat → List ByteStr) × PartitionStats

/-- Processing of one raw input line by the loop body of
`partition_to_buckets`. -/
def partitionStep (num_buckets : Nat) (st : PartState) (raw : ByteStr) :
    PartState :=
  let stats := { st.2 with lines_read := st.2.lines_read + 1 }
  let line := rstripNL raw
  if line.isEmpty then
    (st.1, { stats with empty_lines := stats.empty_lines + 1 })
  else
    let parts := splitLimit 124 3 line
    if h : parts.length < 4 then
      (st.1, { stats with malformed_lines := stats.malformed_lines + 1 })
    else
      let claim_bytes := parts.get ⟨2, by omega⟩
      let status_bytes := parts.get ⟨3, by omega⟩
      let bucket_idx := crc32 (claim_bytes ++ [124] ++ status_bytes) &&&
        (num_buckets - 1)
      (Function.update st.1 bucket_idx (st.1 bucket_idx ++ [line ++ [10]]),
       { stats with lines_written := stats.lines_written + 1 })

/-- `partition_to_buckets`, modelled over the list of raw input lines. -/
def partition_to_buckets (lines : List ByteStr) (num_buckets : Nat) :
    PartState :=
  lines.foldl (partitionStep num_buckets) (fun _ => [], {})

/-- The trimmed line, when the raw line is neither empty nor malformed. -/
def wellFormedLine (raw : ByteStr) : Option ByteStr :=
  let line := rstripNL raw
  if line.isEmpty then none
  else if (splitLimit 124 3 line).length < 4 then none
  else some line

/-- The bucket index assigned to a trimmed well-formed line. -/
def bucketIdxOf (num_buckets : Nat) (line : ByteStr) : Nat :=
  crc32 ((splitLimit 124 3 line).getD 2 [] ++ [124] ++
    (splitLimit 124 3 line).getD 3 []) &&& (num_buckets - 1)

/-! ## The LRU file-handle cache: `cache.py`

The cache state is the list of bucket indices with an open handle, ordered
from least recently written (front, the victim of `popitem(last=False)`) to
most recently written (back, the target of `move_to_end`). -/

/-- `while len(self._cache) >= self._max_handles: popitem(last=False)`. -/
def lruEvict (max_handles : Nat) : List Nat → List Nat
  | [] => []
  | h :: t => if max_handles ≤ (h :: t).length then lruEvict max_handles t
              else h :: t

/-- `LRUFileCache.write`: refresh the handle's recency when cached, otherwise
evict down to capacity and open a fresh handle (appended as most recent). -/
def lruWrite (max_handles : Nat) (cache : List Nat) (bucket_idx : Nat) :
    List Nat :=
  if bucket_idx ∈ cache then cache.erase bucket_idx ++ [bucket_idx]
  else lruEvict max_handles cache ++ [bucket_idx]

example : [0, 1, 2, 3].foldl (lruWrite 2) [] = [2, 3] := by decide

example : [0, 1, 0, 2].foldl (lruWrite 2) [] = [0, 2] := by decide

/-! ## Bucket records, parsing, and grouped adjacency construction

`parse.py`, `build.py` and `types.py` of `routing_cycle_detector/graph`. -/

abbrev GroupKey := ByteStr × ByteStr

abbrev BucketRecord := ByteStr × ByteStr × ByteStr × ByteStr

abbrev GroupedAdjacency := List (GroupKey × Adj ByteStr)

abbrev OutDegreeByGroup := List (GroupKey × Nat)

structure BucketResult where
  claim_id : ByteStr
  status_code : ByteStr
  cycle_length : Nat
deriving DecidableEq, Repr

/-- `parse_bucket_line` from `parse.py`: trim, reject empty and malformed
lines, unpack the four fields. -/
def parse_bucket_line (raw : ByteStr) : Option BucketRecord :=
  let line := rstripNL raw
  if line.isEmpty then none
  else
    match splitLimit 124 3 line with
    | [source, dest, claim_id, status] => some (source, dest, claim_id, status)
    | _ => none

/-- `iter_bucket_records`: parsed records of the lines, invalid ones skipped. -/
def read_bucket_records (lines : List ByteStr) : List BucketRecord :=
  lines.filterMap parse_bucket_line

/-- Python `set.add`: append the element if it is not already present. -/
def setInsert {β : Type} [DecidableEq β] (l : List β) (d : β) : List β :=
  if d ∈ l then l else l ++ [d]

/-- `adj[source].add(dest)` on a `defaultdict(set)`. -/
def adjInsert {β : Type} [DecidableEq β] : Adj β → β → β → Adj β
  | [], s, d => [(s, [d])]
  | (k, ds) :: rest, s, d =>
    if k = s then (k, setInsert ds d) :: rest
    else (k, ds) :: adjInsert rest s d

/-- `edges[key]` on the `defaultdict(lambda: defaultdict(set))` (read-only). -/
def groupedGet : GroupedAdjacency → GroupKey → Adj ByteStr
  | [], _ => []
  | (k, adj) :: rest, key => if k = key then adj else groupedGet rest key

/-- `edges[key][source].add(dest)`. -/
def groupedInsert : GroupedAdjacency → GroupKey → ByteStr → ByteStr →
    GroupedAdjacency
  | [], key, s, d => [(key, adjInsert [] s d)]
  | (k, adj) :: rest, key, s, d =>
    if k = key then (k, adjInsert adj s d) :: rest
    else (k, adj) :: groupedInsert rest key s d

/-- `max_out_degree[key]` on a `defaultdict(int)`. -/
def degGet : OutDegreeByGroup → GroupKey → Nat
  | [], _ => 0
  | (k, n) :: rest, key => if k = key then n else degGet rest key

/-- `max_out_degree[key] = n`. -/
def degSet : OutDegreeByGroup → GroupKey → Nat → OutDegreeByGroup
  | [], key, n => [(key, n)]
  | (k, m) :: rest, key, n =>
    if k = key then (k, n) :: rest else (k, m) :: degSet rest key n

/-- The loop body of `build_grouped_adjacency`: add the edge (deduplicated)
and track the max out-degree using only unique edges. -/
def buildStep (st : GroupedAdjacency × OutDegreeByGroup) (r : BucketRecord) :
    GroupedAdjacency × OutDegreeByGroup :=
  let (source, dest, claim_id, status) := r
  let key : GroupKey := (claim_id, status)
  let old_size := (adjGet (groupedGet st.1 key) source).length
  let edges := groupedInsert st.1 key source dest
  let new_size := (adjGet (groupedGet edges key) source).length
  if old_size < new_size ∧ degGet st.2 key < new_size then
    (edges, degSet st.2 key new_size)
  else (edges, st.2)

/-- `build_grouped_adjacency` from `build.py`. -/
def build_grouped_adjacency (records : List BucketRecord) :
    GroupedAdjacency × OutDegreeByGroup :=
  records.foldl buildStep ([], [])

/-- `process_bucket` from `graph/process_bucket.py`. -/
def process_bucket (lines : List ByteStr) : Option BucketResult :=
  let built := build_grouped_adjacency (read_bucket_records lines)
  built.1.foldl
    (fun best kv =>
      let cycle_len := find_longest_cycle kv.2 (decide (degGet built.2 kv.1 ≤ 1))
      match best with
      | none =>
        if 0 < cycle_len then some ⟨kv.1.1, kv.1.2, cycle_len⟩ else none
      | some b =>
        if 0 < cycle_len ∧ b.cycle_length < cycle_len then
          some ⟨kv.1.1, kv.1.2, cycle_len⟩
        else some b)
    none

/-! ## The bucket-count validation of `solve`

`solve.py` lines 41–43: `if buckets & (buckets - 1) != 0: raise ValueError`.
We model the predicate "solve raises" (over the non-negative bucket counts;
for negative Python ints the check always raises). -/

/-- `True` exactly when `solve` raises its `ValueError` for this bucket
count, before any partitioning or processing work. -/
def solveRejectsBuckets (buckets : Nat) : Bool :=
  decide (buckets &&& (buckets - 1) ≠ 0)

/-! ## The monolithic bucket processor: `src/graph.py`

Verbatim re-implementation of the duplicated monolithic module, used for
the refinement claim between the two processors. -/

namespace Monolithic

/-- The Python `dfs` closure of `_find_cycle_dfs` in `src/graph.py`. -/
def dfsAux {β : Type} [DecidableEq β] (adj : Adj β) (idxf : β → Option Nat)
    (start : β) (startIdx : Nat) :
    Nat → β → List β → Nat → Nat → Nat
  | 0, _, _, _, longest => longest
  | fuel + 1, node, path, depth, longest =>
    (adjGet adj node).foldl
      (fun acc neighbor =>
        if neighbor = start ∧ 1 ≤ depth then
          if acc < depth + 1 then depth + 1 else acc
        else if neighbor ∈ path then acc
        else
          match idxf neighbor with
          | some j =>
            if startIdx ≤ j then
              dfsAux adj idxf start startIdx fuel neighbor (neighbor :: path)
                (depth + 1) acc
            else acc
          | none => acc)
      longest

/-- The outer start loop of `_find_cycle_dfs` in `src/graph.py`. -/
def dfsStarts {β : Type} [DecidableEq β] (adj : Adj β) (idxf : β → Option Nat)
    (fuel : Nat) : List β → Nat → Nat → Nat
  | [], _, longest => longest
  | s :: rest, i, longest =>
    dfsStarts adj idxf fuel rest (i + 1) (dfsAux adj idxf s i fuel s [s] 0 longest)

/-- `_find_cycle_dfs` from `src/graph.py`. -/
def find_cycle_dfs {β : Type} [DecidableEq β] [LinearOrder β]
    (adj : Adj β) : Nat :=
  let nodes := adj.map Prod.fst
  if nodes.isEmpty then 0
  else
    let nodesSorted := nodes.insertionSort (· ≤ ·)
    let idxf : β → Option Nat := fun b =>
      if b ∈ nodesSorted then some (nodesSorted.indexOf b) else none
    dfsStarts adj idxf nodesSorted.length nodesSorted 0 0

/-- One walk of `_find_cycle_functional` in `src/graph.py`. -/
def walkAux {β : Type} [DecidableEq β] (nx : List (β × β)) (gvis : List β) :
    Nat → Option β → List (β × Nat) → Nat → Nat × List β
  | 0, _, po, _ => (0, po.map Prod.fst)
  | _ + 1, none, po, _ => (0, po.map Prod.fst)
  | fuel + 1, some cur, po, pos =>
    if cur ∈ gvis then (0, po.map Prod.fst)
    else
      match poLookup po cur with
      | some p => (pos - p, po.map Prod.fst)
      | none => walkAux nx gvis fuel (nextGet nx cur) ((cur, pos) :: po) (pos + 1)

/-- The start loop of `_find_cycle_functional` in `src/graph.py`. -/
def funcLoop {β : Type} [DecidableEq β] (nx : List (β × β)) (fuel : Nat) :
    List β → List β → Nat → Nat
  | [], _, longest => longest
  | start :: rest, gvis, longest =>
    if start ∈ gvis then funcLoop nx fuel rest gvis longest
    else
      let r := walkAux nx gvis fuel (some start) [] 0
      let longest' := if 2 ≤ r.1 ∧ longest < r.1 then r.1 else longest
      funcLoop nx fuel rest (gvis ++ r.2) longest'

/-- `_find_cycle_functional` from `src/graph.py`. -/
def find_cycle_functional {β : Type} [DecidableEq β] (adj : Adj β) : Nat :=
  let nx := buildNext adj
  if nx.isEmpty then 0
  else funcLoop nx ((allNodes nx).length + 1) (allNodes nx) [] 0

/-- `_find_longest_cycle` from `src/graph.py`. -/
def find_longest_cycle {β : Type} [DecidableEq β] [LinearOrder β]
    (adj : Adj β) (is_functional : Bool) : Nat :=
  if adj.isEmpty then 0
  else if is_functional then find_cycle_functional adj
  else find_cycle_dfs adj

/-- `process_bucket` from `src/graph.py`: inline parse and adjacency build,
then the per-group search returning a plain tuple. -/
def process_bucket (lines : List ByteStr) :
    Option (ByteStr × ByteStr × Nat) :=
  let built := lines.foldl
    (fun st raw =>
      let line := rstripNL raw
      if line.isEmpty then st
      else
        let parts := splitLimit 124 3 line
        if h : parts.length < 4 then st
        else
          let source := parts.get ⟨0, by omega⟩
          let dest := parts.get ⟨1, by omega⟩
          let claim_id := parts.get ⟨2, by omega⟩
          let status := parts.get ⟨3, by omega⟩
          buildStep st (source, dest, claim_id, status))
    ([], [])
  built.1.foldl
    (fun best kv =>
      let cycle_len := find_longest_cycle kv.2 (decide (degGet built.2 kv.1 ≤ 1))
      if 0 < cycle_len then
        match best with
        | none => some (kv.1.1, kv.1.2, cycle_len)
        | some b =>
          if b.2.2 < cycle_len then some (kv.1.1, kv.1.2, cycle_len) else some b
      else best)
    none

end Monolithic

/-! ## Lemmas about the LRU cache -/

theorem lruEvict_of_length_lt (cap : Nat) :
    ∀ l : List Nat, l.length < cap → lruEvict cap l = l
  | [], _ => rfl
  | h :: t, hlt => by
    have hx : ¬ cap ≤ (h :: t).length := by omega
    simp only [lruEvict, if_neg hx]

theorem lruEvict_of_length_eq (cap : Nat) (hcap : 1 ≤ cap) (l : List Nat)
    (hl : l.length = cap) : lruEvict cap l = l.drop 1 := by
  cases l with
  | nil => simp only [List.length_nil] at hl; omega
  | cons h t =>
    have hx : cap ≤ (h :: t).length := le_of_eq hl.symm
    simp only [lruEvict, if_pos hx, List.drop_succ_cons, List.drop_zero]
    have ht : t.length < cap := by
      simp only [List.length_cons] at hl; omega
    exact lruEvict_of_length_lt cap t ht

/-- The core LRU invariant: after a duplicate-free sequence of writes the
open handles are exactly the most recent `cap` of them, in write order. -/
theorem lru_foldl_eq_drop (cap : Nat) (hcap : 1 ≤ cap) :
    ∀ ws : List Nat, ws.Nodup →
      ws.foldl (lruWrite cap) [] = ws.drop (ws.length - cap) := by
  intro ws
  induction ws using List.reverseRecOn with
  | nil => intro _; simp
  | append_singleton ws w ih =>
    intro hnodup
    have hnd : ws.Nodup := (List.nodup_append.1 hnodup).1
    have hw : w ∉ ws := by
      intro hmem
      exact (List.nodup_append.1 hnodup).2.2 hmem (List.mem_singleton_self w)
    rw [List.foldl_append, List.foldl_cons, List.foldl_nil, ih hnd]
    have hsub : ws.drop (ws.length - cap) ⊆ ws := fun a ha =>
      List.mem_of_mem_drop ha
    have hwnot : w ∉ ws.drop (ws.length - cap) := fun h => hw (hsub h)
    rw [lruWrite, if_neg hwnot]
    have hlen : (ws.drop (ws.length - cap)).length = ws.length - (ws.length - cap) :=
      List.length_drop _ _
    have hlen2 : (ws ++ [w]).length = ws.length + 1 := by simp
    rw [hlen2]
    by_cases hcase : ws.length < cap
    · rw [lruEvict_of_length_lt cap _ (by omega)]
      have h1 : ws.length - cap = 0 := by omega
      have h2 : ws.length + 1 - cap = 0 := by omega
      rw [h1, h2, List.drop_zero, List.drop_zero]
    · have hlen' : (ws.drop (ws.length - cap)).length = cap := by omega
      rw [lruEvict_of_length_eq cap hcap _ hlen', List.drop_drop]
      have h3 : ws.length + 1 - cap ≤ ws.length := by omega
      rw [List.drop_append_of_le_length h3]
      have h4 : ws.length - cap + 1 = ws.length + 1 - cap := by omega
      rw [h4]

/-- C9 claim theorem (shared form). -/
theorem lru_cache_spec (cap : Nat) (ws : List Nat) (hcap : 1 ≤ cap)
    (hnodup : ws.Nodup) :
    ws.foldl (lruWrite cap) [] = ws.drop (ws.length - cap) ∧
    (ws.foldl (lruWrite cap) []).length = min ws.length cap ∧
    ws = ws.take (ws.length - cap) ++ ws.foldl (lruWrite cap) [] := by
  have h := lru_foldl_eq_drop cap hcap ws hnodup
  refine ⟨h, ?_, ?_⟩
  · rw [h, List.length_drop]; omega
  · rw [h, List.take_append_drop]

/-! ## Lemmas about partition counters -/

theorem splitLimit_length_le (sep : Nat) :
    ∀ (n : Nat) (l : ByteStr), (splitLimit sep n l).length ≤ n + 1
  | 0, l => by simp [splitLimit]
  | n + 1, l => by
    simp only [splitLimit]
    cases h : splitFirst sep l with
    | none => simp
    | some p =>
      simp only [List.length_cons]
      exact Nat.succ_le_succ (splitLimit_length_le sep n _)

/-- Every input line increments `lines_read` and exactly one of the three
category counters. -/
theorem partitionStep_stats (B : Nat) (st : PartState) (raw : ByteStr) :
    (partitionStep B st raw).2.lines_read = st.2.lines_read + 1 ∧
    (((partitionStep B st raw).2.empty_lines = st.2.empty_lines + 1 ∧
      (partitionStep B st raw).2.malformed_lines = st.2.malformed_lines ∧
      (partitionStep B st raw).2.lines_written = st.2.lines_written) ∨
     ((partitionStep B st raw).2.empty_lines = st.2.empty_lines ∧
      (partitionStep B st raw).2.malformed_lines = st.2.malformed_lines + 1 ∧
      (partitionStep B st raw).2.lines_written = st.2.lines_written) ∨
     ((partitionStep B st raw).2.empty_lines = st.2.empty_lines ∧
      (partitionStep B st raw).2.malformed_lines = st.2.malformed_lines ∧
      (partitionStep B st raw).2.lines_written = st.2.lines_written + 1)) := by
  simp only [partitionStep]
  by_cases h1 : (rstripNL raw).isEmpty
  · simp [h1]
  · simp only [h1, Bool.false_eq_true, if_false]
    by_cases h2 : (splitLimit 124 3 (rstripNL raw)).length < 4
    · simp [h2]
    · simp [h2]

/-- The partition counter identity over a whole run. -/
theorem partition_counter_identity (lines : List ByteStr) (B : Nat) :
    (partition_to_buckets lines B).2.lines_read =
      (partition_to_buckets lines B).2.empty_lines +
      (partition_to_buckets lines B).2.malformed_lines +
      (partition_to_buckets lines B).2.lines_written := by
  unfold partition_to_buckets
  refine foldl_invariant
    (fun st : PartState => st.2.lines_read =
      st.2.empty_lines + st.2.malformed_lines + st.2.lines_written)
    (partitionStep B) lines (fun _ => [], {}) rfl ?_
  intro a x _ ha
  obtain ⟨h1, h2⟩ := partitionStep_stats B a x
  rcases h2 with ⟨e, m, w⟩ | ⟨e, m, w⟩ | ⟨e, m, w⟩ <;> omega

/-! ## Lemmas about bucket routing -/

theorem getD_eq_get {α : Type} (l : List α) (n : Nat) (d : α)
    (h : n < l.length) : l.getD n d = l.get ⟨n, h⟩ := by
  rw [List.getD_eq_getElem?_getD, List.getElem?_eq_getElem h]
  rfl

/-- Which lines does a whole partition run append to bucket `j`, starting
from an arbitrary intermediate state. -/
theorem partition_foldl_buckets (B : Nat) :
    ∀ (lines : List ByteStr) (init : PartState) (j : Nat),
      (lines.foldl (partitionStep B) init).1 j =
        init.1 j ++ ((lines.filterMap wellFormedLine).filter
          (fun line => decide (bucketIdxOf B line = j))).map
            (fun line => line ++ [10])
  | [], _, j => by simp
  | raw :: rest, init, j => by
    rw [List.foldl_cons, partition_foldl_buckets B rest _ j]
    by_cases h1 : (rstripNL raw).isEmpty
    · have hwf : wellFormedLine raw = none := by
        simp only [wellFormedLine, h1, if_true]
      have hstep : (partitionStep B init raw).1 = init.1 := by
        simp only [partitionStep, h1, if_true]
      rw [hstep, List.filterMap_cons_none hwf]
    · by_cases h2 : (splitLimit 124 3 (rstripNL raw)).length < 4
      · have hwf : wellFormedLine raw = none := by
          simp only [wellFormedLine, h1, Bool.false_eq_true, if_false, h2,
            if_true]
        have hstep : (partitionStep B init raw).1 = init.1 := by
          simp only [partitionStep, h1, Bool.false_eq_true, if_false, dif_pos h2]
        rw [hstep, List.filterMap_cons_none hwf]
      · have hwf : wellFormedLine raw = some (rstripNL raw) := by
          simp only [wellFormedLine, h1, Bool.false_eq_true, if_false, h2]
        have hidx : bucketIdxOf B (rstripNL raw) =
            crc32 ((splitLimit 124 3 (rstripNL raw)).get ⟨2, by omega⟩ ++ [124] ++
              (splitLimit 124 3 (rstripNL raw)).get ⟨3, by omega⟩) &&& (B - 1) := by
          rw [bucketIdxOf, getD_eq_get _ 2 _ (by omega), getD_eq_get _ 3 _ (by omega)]
        have hstep : (partitionStep B init raw).1 =
            Function.update init.1 (bucketIdxOf B (rstripNL raw))
              (init.1 (bucketIdxOf B (rstripNL raw)) ++ [rstripNL raw ++ [10]]) := by
          simp only [partitionStep, h1, Bool.false_eq_true, if_false, dif_neg h2]
          rw [hidx]
        rw [hstep, List.filterMap_cons_some hwf]
        by_cases hj : bucketIdxOf B (rstripNL raw) = j
        · rw [hj, Function.update_same, List.filter_cons_of_pos (by simpa using hj),
            List.map_cons, List.append_assoc]
          rfl
        · rw [Function.update_noteq (fun hne => hj hne.symm),
            List.filter_cons_of_neg (by simpa using hj)]

/-- C7 (shared form): bucket `j` receives exactly the well-formed lines whose
CRC-32 group hash masked by `B - 1` equals `j`, each with a newline appended;
the bucket index depends only on the group key `(claim_id, status_code)`. -/
theorem partition_routing_spec (lines : List ByteStr) (B : Nat) (j : Nat) :
    (partition_to_buckets lines B).1 j =
      ((lines.filterMap wellFormedLine).filter
        (fun line => decide (bucketIdxOf B line = j))).map
          (fun line => line ++ [10]) := by
  rw [partition_to_buckets, partition_foldl_buckets B lines _ j]
  rfl

/-! ## Equation lemmas for the fueled searches -/

theorem dfsAux_zero {β : Type} [DecidableEq β] (adj : Adj β)
    (idxf : β → Option Nat) (start : β) (startIdx : Nat) (node : β)
    (path : List β) (depth longest : Nat) :
    dfsAux adj idxf start startIdx 0 node path depth longest = longest := rfl

theorem dfsAux_succ {β : Type} [DecidableEq β] (adj : Adj β)
    (idxf : β → Option Nat) (start : β) (startIdx : Nat) (fuel : Nat) (node : β)
    (path : List β) (depth longest : Nat) :
    dfsAux adj idxf start startIdx (fuel + 1) node path depth longest =
      (adjGet adj node).foldl
        (fun acc neighbor =>
          if neighbor = start ∧ 1 ≤ depth then
            if acc < depth + 1 then depth + 1 else acc
          else if neighbor ∈ path then acc
          else
            match idxf neighbor with
            | some j =>
              if startIdx ≤ j then
                dfsAux adj idxf start startIdx fuel neighbor (neighbor :: path)
                  (depth + 1) acc
              else acc
            | none => acc)
        longest := rfl

/-! ## Results are never 1: shared lemmas for C6 -/

theorem dfsAux_result_cases {β : Type} [DecidableEq β] (adj : Adj β)
    (idxf : β → Option Nat) (start : β) (startIdx : Nat) :
    ∀ (fuel : Nat) (node : β) (path : List β) (depth longest : Nat),
      longest = 0 ∨ 2 ≤ longest →
      dfsAux adj idxf start startIdx fuel node path depth longest = 0 ∨
        2 ≤ dfsAux adj idxf start startIdx fuel node path depth longest := by
  intro fuel
  induction fuel with
  | zero => intro node path depth longest h; exact h
  | succ f ih =>
    intro node path depth longest h
    rw [dfsAux_succ]
    refine foldl_invariant (fun a => a = 0 ∨ 2 ≤ a) _ _ longest h ?_
    intro a x _ ha
    by_cases h1 : x = start ∧ 1 ≤ depth
    · simp only [if_pos h1]
      by_cases h2 : a < depth + 1
      · simp only [if_pos h2]; right; omega
      · simp only [if_neg h2]; exact ha
    · simp only [if_neg h1]
      by_cases h2 : x ∈ path
      · simp only [if_pos h2]; exact ha
      · simp only [if_neg h2]
        cases hidx : idxf x with
        | none => exact ha
        | some jj =>
          by_cases h3 : startIdx ≤ jj
          · simp only [if_pos h3]; exact ih x (x :: path) (depth + 1) a ha
          · simp only [if_neg h3]; exact ha

theorem dfsStarts_result_cases {β : Type} [DecidableEq β] (adj : Adj β)
    (idxf : β → Option Nat) (fuel : Nat) :
    ∀ (starts : List β) (i longest : Nat), longest = 0 ∨ 2 ≤ longest →
      dfsStarts adj idxf fuel starts i longest = 0 ∨
        2 ≤ dfsStarts adj idxf fuel starts i longest
  | [], _, _, h => h
  | s :: rest, i, longest, h =>
    dfsStarts_result_cases adj idxf fuel rest (i + 1) _
      (dfsAux_result_cases adj idxf s i fuel s [s] 0 longest h)

theorem find_cycle_dfs_result_cases {β : Type} [DecidableEq β] [LinearOrder β]
    (adj : Adj β) : find_cycle_dfs adj = 0 ∨ 2 ≤ find_cycle_dfs adj := by
  simp only [find_cycle_dfs]
  by_cases h : (adj.map Prod.fst).isEmpty
  · rw [if_pos h]; exact Or.inl rfl
  · rw [if_neg h]
    exact dfsStarts_result_cases _ _ _ _ 0 0 (Or.inl rfl)

theorem funcLoop_result_cases {β : Type} [DecidableEq β] (nx : List (β × β))
    (fuel : Nat) :
    ∀ (starts gvis : List β) (longest : Nat), longest = 0 ∨ 2 ≤ longest →
      funcLoop nx fuel starts gvis longest = 0 ∨
        2 ≤ funcLoop nx fuel starts gvis longest
  | [], _, _, h => h
  | s :: rest, gvis, longest, h => by
    rw [funcLoop]
    by_cases hg : s ∈ gvis
    · simp only [if_pos hg]
      exact funcLoop_result_cases nx fuel rest gvis longest h
    · simp only [if_neg hg]
      refine funcLoop_result_cases nx fuel rest _ _ ?_
      by_cases hr : 2 ≤ (walkAux nx gvis fuel (some s) [] 0).1 ∧
          longest < (walkAux nx gvis fuel (some s) [] 0).1
      · simp only [if_pos hr]; right; exact hr.1
      · simp only [if_neg hr]; exact h

theorem find_cycle_functional_result_cases {β : Type} [DecidableEq β]
    (adj : Adj β) :
    find_cycle_functional adj = 0 ∨ 2 ≤ find_cycle_functional adj := by
  simp only [find_cycle_functional]
  by_cases h : (buildNext adj).isEmpty
  · rw [if_pos h]; exact Or.inl rfl
  · rw [if_neg h]
    exact funcLoop_result_cases _ _ _ [] 0 (Or.inl rfl)

theorem find_longest_cycle_result_cases {β : Type} [DecidableEq β]
    [LinearOrder β] (adj : Adj β) (is_functional : Bool) :
    find_longest_cycle adj is_functional = 0 ∨
      2 ≤ find_longest_cycle adj is_functional := by
  rw [find_longest_cycle]
  by_cases h : adj.isEmpty
  · rw [if_pos h]; exact Or.inl rfl
  · rw [if_neg h]
    cases is_functional
    · rw [if_neg Bool.false_ne_true]
      exact find_cycle_dfs_result_cases adj
    · rw [if_pos rfl]
      exact find_cycle_functional_result_cases adj

/-- The per-group selection step of `process_bucket` keeps the invariant
"any selected result has cycle length at least 2". -/
theorem selectStep_preserve (key : GroupKey) (n : Nat) (res : BucketResult)
    (hn : n = 0 ∨ 2 ≤ n) (a : Option BucketResult) :
    (a = some res → 2 ≤ res.cycle_length) →
    (match a with
      | none => if 0 < n then some ⟨key.1, key.2, n⟩ else none
      | some b =>
        if 0 < n ∧ b.cycle_length < n then some ⟨key.1, key.2, n⟩
        else some b) = some res → 2 ≤ res.cycle_length := by
  cases a with
  | none =>
    intro _
    dsimp only
    by_cases h : 0 < n
    · rw [if_pos h]
      intro he
      cases he
      show 2 ≤ n
      omega
    · rw [if_neg h]
      intro he
      cases he
  | some b =>
    intro ha
    dsimp only
    by_cases h : 0 < n ∧ b.cycle_length < n
    · rw [if_pos h]
      intro he
      cases he
      show 2 ≤ n
      omega
    · rw [if_neg h]
      exact ha

theorem process_bucket_cycle_length_ge_two (lines : List ByteStr)
    (res : BucketResult) (h : process_bucket lines = some res) :
    2 ≤ res.cycle_length := by
  rw [process_bucket] at h
  revert h
  refine (foldl_invariant
    (fun best : Option BucketResult =>
      best = some res → 2 ≤ res.cycle_length) _ _ none (by intro h; cases h) ?_)
  intro a kv _ ha
  exact selectStep_preserve kv.1
    (find_longest_cycle kv.2
      (decide (degGet (build_grouped_adjacency (read_bucket_records lines)).2
        kv.1 ≤ 1)))
    res (find_longest_cycle_result_cases _ _) a ha

/-! ## Soundness of `find_cycle_dfs`: every reported value is a cycle length -/

/-- A value the search may legitimately report: 0, or the length of some
simple cycle of the graph. -/
def GoodVal {β : Type} [DecidableEq β] (adj : Adj β) (n : Nat) : Prop :=
  n = 0 ∨ ∃ c, IsCycle adj c ∧ c.length = n

theorem le_dfsAux {β : Type} [DecidableEq β] (adj : Adj β)
    (idxf : β → Option Nat) (start : β) (startIdx : Nat) :
    ∀ (fuel : Nat) (node : β) (path : List β) (depth longest : Nat),
      longest ≤ dfsAux adj idxf start startIdx fuel node path depth longest := by
  intro fuel
  induction fuel with
  | zero => intro node path depth longest; exact le_refl _
  | succ f ih =>
    intro node path depth longest
    rw [dfsAux_succ]
    refine le_foldl_of_le _ ?_ _ longest
    intro a x
    dsimp only
    by_cases h1 : x = start ∧ 1 ≤ depth
    · rw [if_pos h1]
      by_cases h2 : a < depth + 1
      · rw [if_pos h2]; omega
      · rw [if_neg h2]
    · rw [if_neg h1]
      by_cases h2 : x ∈ path
      · rw [if_pos h2]
      · rw [if_neg h2]
        cases hidx : idxf x with
        | none => exact le_refl _
        | some j =>
          dsimp only
          by_cases h3 : startIdx ≤ j
          · rw [if_pos h3]; exact ih x (x :: path) (depth + 1) a
          · rw [if_neg h3]

theorem dfsAux_mono {β : Type} [DecidableEq β] (adj : Adj β)
    (idxf : β → Option Nat) (start : β) (startIdx : Nat) :
    ∀ (fuel : Nat) (node : β) (path : List β) (depth : Nat) {a b : Nat},
      a ≤ b →
      dfsAux adj idxf start startIdx fuel node path depth a ≤
        dfsAux adj idxf start startIdx fuel node path depth b := by
  intro fuel
  induction fuel with
  | zero => intro node path depth a b h; exact h
  | succ f ih =>
    intro node path depth a b h
    rw [dfsAux_succ, dfsAux_succ]
    refine foldl_le_foldl _ ?_ _ h
    intro a' b' x h'
    dsimp only
    by_cases h1 : x = start ∧ 1 ≤ depth
    · simp only [if_pos h1]
      split_ifs <;> omega
    · simp only [if_neg h1]
      by_cases h2 : x ∈ path
      · simp only [if_pos h2]; exact h'
      · simp only [if_neg h2]
        cases hidx : idxf x with
        | none => exact h'
        | some j =>
          dsimp only
          by_cases h3 : startIdx ≤ j
          · simp only [if_pos h3]; exact ih x (x :: path) (depth + 1) h'
          · simp only [if_neg h3]; exact h'

theorem dfsAux_sound {β : Type} [DecidableEq β] (adj : Adj β)
    (idxf : β → Option Nat) (start : β) (startIdx : Nat) :
    ∀ (fuel : Nat) (p : List β) (node : β) (path : List β)
      (depth longest : Nat),
      path = p.reverse →
      p.Nodup →
      List.Chain' (EdgeStep adj) p →
      p.head? = some start →
      p.getLast? = some node →
      depth + 1 = p.length →
      GoodVal adj longest →
      GoodVal adj (dfsAux adj idxf start startIdx fuel node path depth longest) := by
  intro fuel
  induction fuel with
  | zero => intro p node path depth longest _ _ _ _ _ _ h; exact h
  | succ f ih =>
    intro p node path depth longest hpath hnodup hchain hhead hlast hdepth hgood
    rw [dfsAux_succ]
    refine foldl_invariant (GoodVal adj) _ _ longest hgood ?_
    intro a x hx ha
    dsimp only
    by_cases h1 : x = start ∧ 1 ≤ depth
    · rw [if_pos h1]
      by_cases h2 : a < depth + 1
      · rw [if_pos h2]
        right
        refine ⟨p, ⟨?_, hnodup, hchain, ?_⟩, hdepth.symm⟩
        · omega
        · intro la hla b hb
          rw [hlast] at hla
          rw [hhead] at hb
          cases hla
          cases hb
          rw [← h1.1]
          exact hx
      · rw [if_neg h2]; exact ha
    · rw [if_neg h1]
      by_cases h2 : x ∈ path
      · rw [if_pos h2]; exact ha
      · rw [if_neg h2]
        cases hidx : idxf x with
        | none => exact ha
        | some j =>
          dsimp only
          by_cases h3 : startIdx ≤ j
          · rw [if_pos h3]
            have hpne : p ≠ [] := by
              intro hnil; rw [hnil] at hhead; cases hhead
            have hxnotp : x ∉ p := by
              rw [hpath, List.mem_reverse] at h2; exact h2
            refine ih (p ++ [x]) x (x :: path) (depth + 1) a ?_ ?_ ?_ ?_ ?_ ?_ ha
            · rw [hpath, List.reverse_append, List.reverse_singleton]
              rfl
            · rw [List.nodup_append]
              exact ⟨hnodup, List.nodup_singleton x,
                fun y hy hmem => by
                  rw [List.mem_singleton] at hmem
                  exact hxnotp (hmem ▸ hy)⟩
            · rw [List.chain'_append]
              refine ⟨hchain, List.chain'_singleton x, ?_⟩
              intro y hy z hz
              rw [hlast] at hy
              cases hy
              simp only [List.head?_cons, Option.mem_def, Option.some.injEq] at hz
              rw [← hz]
              exact hx
            · cases p with
              | nil => exact absurd rfl hpne
              | cons hd tl => simpa using hhead
            · rw [List.getLast?_concat]
            · rw [List.length_append, List.length_singleton]
              omega
          · rw [if_neg h3]; exact ha

theorem dfsStarts_sound {β : Type} [DecidableEq β] (adj : Adj β)
    (idxf : β → Option Nat) (fuel : Nat) :
    ∀ (starts : List β) (i longest : Nat), GoodVal adj longest →
      GoodVal adj (dfsStarts adj idxf fuel starts i longest)
  | [], _, _, h => h
  | s :: rest, i, longest, h => by
    rw [dfsStarts]
    refine dfsStarts_sound adj idxf fuel rest (i + 1) _ ?_
    refine dfsAux_sound adj idxf s i fuel [s] s [s] 0 longest rfl
      (List.nodup_singleton s) (List.chain'_singleton s) rfl rfl rfl h

theorem find_cycle_dfs_sound {β : Type} [DecidableEq β] [LinearOrder β]
    (adj : Adj β) : GoodVal adj (find_cycle_dfs adj) := by
  simp only [find_cycle_dfs]
  by_cases h : (adj.map Prod.fst).isEmpty
  · rw [if_pos h]; exact Or.inl rfl
  · rw [if_neg h]
    exact dfsStarts_sound adj _ _ _ 0 0 (Or.inl rfl)

/-! ## Completeness of `find_cycle_dfs`: every cycle is found from its
minimum-index start -/

theorem dfsStep_ge {β : Type} [DecidableEq β] (adj : Adj β)
    (idxf : β → Option Nat) (start : β) (startIdx : Nat) (f : Nat)
    (path : List β) (depth : Nat) (a : Nat) (x : β) :
    a ≤ (if x = start ∧ 1 ≤ depth then (if a < depth + 1 then depth + 1 else a)
         else if x ∈ path then a
         else match idxf x with
           | some j =>
             if startIdx ≤ j then
               dfsAux adj idxf start startIdx f x (x :: path) (depth + 1) a
             else a
           | none => a) := by
  by_cases h1 : x = start ∧ 1 ≤ depth
  · simp only [if_pos h1]
    split_ifs <;> omega
  · simp only [if_neg h1]
    by_cases h2 : x ∈ path
    · simp only [if_pos h2]; exact le_refl _
    · simp only [if_neg h2]
      cases hidx : idxf x with
      | none => exact le_refl _
      | some j =>
        dsimp only
        by_cases h3 : startIdx ≤ j
        · simp only [if_pos h3]
          exact le_dfsAux adj idxf start startIdx f x (x :: path) (depth + 1) a
        · simp only [if_neg h3]; exact le_refl _

theorem dfsStep_mono {β : Type} [DecidableEq β] (adj : Adj β)
    (idxf : β → Option Nat) (start : β) (startIdx : Nat) (f : Nat)
    (path : List β) (depth : Nat) (a b : Nat) (x : β) (h : a ≤ b) :
    (if x = start ∧ 1 ≤ depth then (if a < depth + 1 then depth + 1 else a)
     else if x ∈ path then a
     else match idxf x with
       | some j =>
         if startIdx ≤ j then
           dfsAux adj idxf start startIdx f x (x :: path) (depth + 1) a
         else a
       | none => a) ≤
    (if x = start ∧ 1 ≤ depth then (if b < depth + 1 then depth + 1 else b)
     else if x ∈ path then b
     else match idxf x with
       | some j =>
         if startIdx ≤ j then
           dfsAux adj idxf start startIdx f x (x :: path) (depth + 1) b
         else b
       | none => b) := by
  by_cases h1 : x = start ∧ 1 ≤ depth
  · simp only [if_pos h1]
    split_ifs <;> omega
  · simp only [if_neg h1]
    by_cases h2 : x ∈ path
    · simp only [if_pos h2]; exact h
    · simp only [if_neg h2]
      cases hidx : idxf x with
      | none => exact h
      | some j =>
        dsimp only
        by_cases h3 : startIdx ≤ j
        · simp only [if_pos h3]
          exact dfsAux_mono adj idxf start startIdx f x (x :: path) (depth + 1) h
        · simp only [if_neg h3]; exact h

/-- The key completeness induction: if an edge-path of fresh, index-admissible
nodes `q` continues from `node` and closes back to `start`, the DFS from this
state reports at least the closed cycle's length `depth + q.length + 1`. -/
theorem dfsAux_complete {β : Type} [DecidableEq β] (adj : Adj β)
    (idxf : β → Option Nat) (start : β) (startIdx : Nat) :
    ∀ (q : List β) (fuel : Nat) (node : β) (path : List β)
      (depth longest : Nat),
      q.length + 1 ≤ fuel →
      List.Chain' (EdgeStep adj) (node :: q) →
      EdgeStep adj ((node :: q).getLastD node) start →
      q.Nodup →
      (∀ x ∈ q, x ∉ path) →
      (∀ x ∈ q, x ≠ start) →
      (∀ x ∈ q, ∃ j, idxf x = some j ∧ startIdx ≤ j) →
      1 ≤ depth + q.length →
      depth + q.length + 1 ≤
        dfsAux adj idxf start startIdx fuel node path depth longest := by
  intro q
  induction q with
  | nil =>
    intro fuel node path depth longest hfuel hchain hclose _ _ _ _ hdep
    cases fuel with
    | zero => omega
    | succ f =>
      rw [dfsAux_succ]
      have hmem : start ∈ adjGet adj node := hclose
      have hdep' : 1 ≤ depth := by simpa using hdep
      refine le_foldl_of_mem _
        (fun a x => dfsStep_ge adj idxf start startIdx f path depth a x)
        (fun a b x hab => dfsStep_mono adj idxf start startIdx f path depth a b x hab)
        (adjGet adj node) longest start hmem (depth + 0 + 1) ?_
      dsimp only
      rw [if_pos ⟨rfl, hdep'⟩]
      split_ifs <;> omega
  | cons v q' ih =>
    intro fuel node path depth longest hfuel hchain hclose hnodup hfresh hne hidxq hdep
    cases fuel with
    | zero => simp only [List.length_cons] at hfuel; omega
    | succ f =>
      rw [dfsAux_succ]
      have hedge : EdgeStep adj node v := (List.chain'_cons.1 hchain).1
      have hvq : v ∈ v :: q' := List.mem_cons_self v q'
      obtain ⟨j, hj, hij⟩ := hidxq v hvq
      have hvne : v ≠ start := hne v hvq
      have hvpath : v ∉ path := hfresh v hvq
      refine le_foldl_of_mem _
        (fun a x => dfsStep_ge adj idxf start startIdx f path depth a x)
        (fun a b x hab => dfsStep_mono adj idxf start startIdx f path depth a b x hab)
        (adjGet adj node) longest v hedge (depth + (q'.length + 1) + 1) ?_
      dsimp only
      rw [if_neg (fun hc => hvne hc.1), if_neg hvpath, hj]
      dsimp only
      rw [if_pos hij]
      have := ih f v (v :: path) (depth + 1) longest
        (by simp only [List.length_cons] at hfuel; omega)
        (List.chain'_cons.1 hchain).2
        (by
          have : ((v :: q').getLastD node) = ((v :: q').getLastD v) := by
            cases q' with
            | nil => rfl
            | cons w t => rfl
          exact this ▸ hclose)
        (List.Nodup.of_cons hnodup)
        (fun x hx => by
          rcases List.mem_cons.1 (List.mem_cons_of_mem v hx) with h | h
          · intro hmem
            rcases List.mem_cons.1 hmem with h' | h'
            · exact (List.nodup_cons.1 hnodup).1 (h' ▸ hx)
            · exact hfresh x (List.mem_cons_of_mem v hx) h'
          · intro hmem
            rcases List.mem_cons.1 hmem with h' | h'
            · exact (List.nodup_cons.1 hnodup).1 (h' ▸ hx)
            · exact hfresh x (List.mem_cons_of_mem v hx) h')
        (fun x hx => hne x (List.mem_cons_of_mem v hx))
        (fun x hx => hidxq x (List.mem_cons_of_mem v hx))
        (by omega)
      calc depth + (q'.length + 1) + 1 = (depth + 1) + q'.length + 1 := by omega
        _ ≤ _ := this

theorem le_dfsStarts {β : Type} [DecidableEq β] (adj : Adj β)
    (idxf : β → Option Nat) (fuel : Nat) :
    ∀ (starts : List β) (i longest : Nat),
      longest ≤ dfsStarts adj idxf fuel starts i longest
  | [], _, _ => le_refl _
  | s :: rest, i, longest =>
    le_trans (le_dfsAux adj idxf s i fuel s [s] 0 longest)
      (le_dfsStarts adj idxf fuel rest (i + 1) _)

theorem dfsStarts_mono {β : Type} [DecidableEq β] (adj : Adj β)
    (idxf : β → Option Nat) (fuel : Nat) :
    ∀ (starts : List β) (i : Nat) {a b : Nat}, a ≤ b →
      dfsStarts adj idxf fuel starts i a ≤ dfsStarts adj idxf fuel starts i b
  | [], _, _, _, h => h
  | s :: rest, i, _, _, h =>
    dfsStarts_mono adj idxf fuel rest (i + 1)
      (dfsAux_mono adj idxf s i fuel s [s] 0 h)

/-- The outer loop dominates the DFS call of any single start. -/
theorem dfsStarts_ge_call {β : Type} [DecidableEq β] (adj : Adj β)
    (idxf : β → Option Nat) (fuel : Nat) :
    ∀ (starts : List β) (i longest : Nat) (j : Nat) (h : j < starts.length),
      dfsAux adj idxf (starts.get ⟨j, h⟩) (i + j) fuel (starts.get ⟨j, h⟩)
        [starts.get ⟨j, h⟩] 0 longest ≤
      dfsStarts adj idxf fuel starts i longest
  | [], _, _, j, h => absurd h (by simp)
  | s :: rest, i, longest, 0, h => by
    rw [dfsStarts]
    show dfsAux adj idxf s (i + 0) fuel s [s] 0 longest ≤ _
    rw [Nat.add_zero]
    exact le_dfsStarts adj idxf fuel rest (i + 1) _
  | s :: rest, i, longest, j + 1, h => by
    rw [dfsStarts]
    show dfsAux adj idxf (rest.get ⟨j, _⟩) (i + (j + 1)) fuel (rest.get ⟨j, _⟩)
      [rest.get ⟨j, _⟩] 0 longest ≤ _
    have harith : i + (j + 1) = (i + 1) + j := by omega
    rw [harith]
    refine le_trans ?_ (dfsStarts_ge_call adj idxf fuel rest (i + 1) _ j
      (by simpa using Nat.lt_of_succ_lt_succ h))
    exact dfsAux_mono adj idxf _ _ fuel _ _ 0
      (le_dfsAux adj idxf s i fuel s [s] 0 longest)

/-! ## Rotations of cycles -/

theorem IsCycle.rotate_one {β : Type} [DecidableEq β] {adj : Adj β}
    {c : List β} (hc : IsCycle adj c) : IsCycle adj (c.rotate 1) := by
  obtain ⟨hlen, hnodup, hchain, hclose⟩ := hc
  cases c with
  | nil => simp at hlen
  | cons v rest =>
    cases rest with
    | nil => simp at hlen
    | cons w rest' =>
      rw [List.rotate_cons_succ, List.rotate_zero]
      refine ⟨?_, ?_, ?_, ?_⟩
      · simp only [List.length_append, List.length_cons,
          List.length_singleton] at hlen ⊢
        omega
      · have := @List.nodup_rotate _ (v :: w :: rest') 1
        rw [List.rotate_cons_succ, List.rotate_zero] at this
        exact this.2 hnodup
      · rw [List.chain'_append]
        refine ⟨(List.chain'_cons.1 hchain).2, List.chain'_singleton v, ?_⟩
        intro y hy z hz
        simp only [List.head?_cons, Option.mem_def, Option.some.injEq] at hz
        subst hz
        refine hclose y ?_ v rfl
        rw [List.getLast?_cons_cons]
        exact hy
      · intro a ha b hb
        rw [List.getLast?_concat] at ha
        cases ha
        have hbw : w = b := by
          cases rest' with
          | nil => simpa using hb
          | cons u t => simpa using hb
        subst hbw
        exact (List.chain'_cons.1 hchain).1

theorem IsCycle.rotate {β : Type} [DecidableEq β] {adj : Adj β}
    {c : List β} (hc : IsCycle adj c) : ∀ k : Nat, IsCycle adj (c.rotate k)
  | 0 => by rwa [List.rotate_zero]
  | k + 1 => by
    rw [← List.rotate_rotate]
    exact (IsCycle.rotate hc k).rotate_one

/-- Every node of a cycle has an outgoing edge. -/
theorem cycle_node_edge {β : Type} [DecidableEq β] {adj : Adj β}
    {c : List β} (hc : IsCycle adj c) {x : β} (hx : x ∈ c) :
    ∃ y, EdgeStep adj x y := by
  have hk : c.indexOf x < c.length := List.indexOf_lt_length.2 hx
  have hrot := hc.rotate (c.indexOf x)
  have hhead : (c.rotate (c.indexOf x)).head? = some x := by
    rw [List.head?_rotate hk]
    exact List.getElem?_indexOf hx
  obtain ⟨hlen, _, hchain, _⟩ := hrot
  cases hcr : c.rotate (c.indexOf x) with
  | nil => rw [hcr] at hhead; cases hhead
  | cons hd q =>
    rw [hcr] at hhead
    simp only [List.head?_cons, Option.some.injEq] at hhead
    subst hhead
    rw [hcr] at hlen hchain
    cases q with
    | nil => simp at hlen
    | cons w t =>
      exact ⟨w, (List.chain'_cons.1 hchain).1⟩

/-- Completeness: under well-formedness, `find_cycle_dfs` reports at least
the length of every simple cycle (each cycle is reachable from the start of
minimum sorted index with the index restriction satisfied). -/
theorem find_cycle_dfs_complete {β : Type} [DecidableEq β] [LinearOrder β]
    (adj : Adj β) (hwf : AdjWF adj) (c : List β) (hc : IsCycle adj c) :
    c.length ≤ find_cycle_dfs adj := by
  have hmemkeys : ∀ x ∈ c, x ∈ adj.map Prod.fst := by
    intro x hx
    obtain ⟨y, hy⟩ := cycle_node_edge hc hx
    exact edgeStep_src_mem_keys hy
  have hcne : c ≠ [] := by
    intro h
    rw [h] at hc
    simp [IsCycle] at hc
  obtain ⟨v0, hv0⟩ := List.exists_mem_of_ne_nil c hcne
  have hne : ¬ (adj.map Prod.fst).isEmpty := by
    rw [List.isEmpty_iff]
    intro h
    rw [h] at hmemkeys
    exact absurd (hmemkeys v0 hv0) (List.not_mem_nil v0)
  simp only [find_cycle_dfs]
  rw [if_neg hne]
  set sorted := (adj.map Prod.fst).insertionSort (· ≤ ·) with hsorted
  have hperm : List.Perm sorted (adj.map Prod.fst) :=
    List.perm_insertionSort (· ≤ ·) (adj.map Prod.fst)
  have hsortnd : sorted.Nodup := hperm.nodup_iff.2 hwf.1
  have hmemsorted : ∀ x ∈ c, x ∈ sorted := fun x hx =>
    hperm.mem_iff.2 (hmemkeys x hx)
  -- the minimum-index node of the cycle
  obtain ⟨m, hm⟩ : ∃ m, m ∈ c.argmin (fun x => sorted.indexOf x) := by
    cases harg : c.argmin (fun x => sorted.indexOf x) with
    | none => exact absurd (List.argmin_eq_none.1 harg) hcne
    | some m => exact ⟨m, rfl⟩
  have hmc : m ∈ c := List.argmin_mem hm
  have hmin : ∀ x ∈ c, sorted.indexOf m ≤ sorted.indexOf x := fun x hx =>
    List.le_of_mem_argmin hx hm
  have hmsorted : m ∈ sorted := hmemsorted m hmc
  have him : sorted.indexOf m < sorted.length := List.indexOf_lt_length.2 hmsorted
  -- rotate the cycle to start at m
  have hk : c.indexOf m < c.length := List.indexOf_lt_length.2 hmc
  have hrot := hc.rotate (c.indexOf m)
  have hhead : (c.rotate (c.indexOf m)).head? = some m := by
    rw [List.head?_rotate hk]
    exact List.getElem?_indexOf hmc
  have hrotlen : (c.rotate (c.indexOf m)).length = c.length := List.length_rotate c _
  have hrotmem : ∀ x ∈ c.rotate (c.indexOf m), x ∈ c := fun x hx =>
    List.mem_rotate.1 hx
  obtain ⟨q, hcr⟩ : ∃ q, c.rotate (c.indexOf m) = m :: q := by
    cases hcr : c.rotate (c.indexOf m) with
    | nil => rw [hcr] at hhead; cases hhead
    | cons hd q =>
      rw [hcr] at hhead
      simp only [List.head?_cons, Option.some.injEq] at hhead
      exact ⟨q, by rw [hhead]⟩
  · rw [hcr] at hrot hrotlen hrotmem
    obtain ⟨hlen', hnodup', hchain', hclose'⟩ := hrot
    have hq1 : 1 ≤ q.length := by
      simp only [List.length_cons] at hlen'
      omega
    have hmnotq : m ∉ q := (List.nodup_cons.1 hnodup').1
    -- the DFS call from m dominates the cycle length
    have hcall := dfsAux_complete adj
      (fun b => if b ∈ sorted then some (sorted.indexOf b) else none)
      m (sorted.indexOf m) q sorted.length m [m] 0 0
      (by
        -- q.length + 1 = c.length ≤ sorted.length by nodup subset
        have hsub : (m :: q) ⊆ sorted := fun x hx => hmemsorted x (hrotmem x hx)
        have hsp := List.subperm_of_subset hnodup' hsub
        have := hsp.length_le
        simp only [List.length_cons] at this ⊢
        omega)
      hchain'
      (by
        -- the closing edge from the last node of (m :: q) back to m
        have hgl : (m :: q).getLast? = some ((m :: q).getLastD m) := by
          rw [List.getLastD_eq_getLast?]
          cases hgl : (m :: q).getLast? with
          | none => simpa using congrArg Option.isSome hgl
          | some y => rfl
        exact hclose' _ (by rw [hgl]; exact rfl) m rfl)
      (List.Nodup.of_cons hnodup')
      (fun x hx hmem => by
        rw [List.mem_singleton] at hmem
        exact hmnotq (hmem ▸ hx))
      (fun x hx hxm => hmnotq (hxm ▸ hx))
      (fun x hx => by
        have hxs : x ∈ sorted := hmemsorted x (hrotmem x (List.mem_cons_of_mem m hx))
        refine ⟨sorted.indexOf x, ?_, ?_⟩
        · dsimp only
          rw [if_pos hxs]
        · exact hmin x (hrotmem x (List.mem_cons_of_mem m hx)))
      (by omega)
    have hget : sorted.get ⟨sorted.indexOf m, him⟩ = m := List.indexOf_get him
    have hge := dfsStarts_ge_call adj
      (fun b => if b ∈ sorted then some (sorted.indexOf b) else none)
      sorted.length sorted 0 0 (sorted.indexOf m) him
    rw [hget, Nat.zero_add] at hge
    have hfin : c.length ≤ dfsAux adj
        (fun b => if b ∈ sorted then some (sorted.indexOf b) else none)
        m (sorted.indexOf m) sorted.length m [m] 0 0 := by
      have hlc : c.length = 0 + q.length + 1 := by
        simp only [List.length_cons] at hrotlen
        omega
      rw [hlc]
      exact hcall
    exact le_trans hfin hge

/-- The full specification of `find_cycle_dfs`: it returns the length of the
longest simple cycle, or 0 when there is none. -/
theorem find_cycle_dfs_spec {β : Type} [DecidableEq β] [LinearOrder β]
    (adj : Adj β) (hwf : AdjWF adj) :
    (∀ c, IsCycle adj c → c.length ≤ find_cycle_dfs adj) ∧
    (find_cycle_dfs adj = 0 ∨
      ∃ c, IsCycle adj c ∧ c.length = find_cycle_dfs adj) :=
  ⟨fun c hc => find_cycle_dfs_complete adj hwf c hc, find_cycle_dfs_sound adj⟩

/-! ## The successor map of a functional graph -/

/-- A graph is functional when every destination set has size at most 1. -/
def Functional {β : Type} (adj : Adj β) : Prop :=
  ∀ p ∈ adj, (p.2 : List β).length ≤ 1

instance {β : Type} [DecidableEq β] (adj : Adj β) :
    Decidable (Functional adj) := by
  unfold Functional; infer_instance

theorem AdjWF.of_cons {β : Type} {p : β × List β} {rest : Adj β}
    (h : AdjWF (p :: rest)) : AdjWF rest :=
  ⟨(List.nodup_cons.1 h.1).2, fun q hq => h.2 q (List.mem_cons_of_mem p hq)⟩

theorem adjGet_cons {β : Type} [DecidableEq β] (k : β) (ds : List β)
    (rest : Adj β) (x : β) :
    adjGet ((k, ds) :: rest) x = if k = x then ds else adjGet rest x := rfl

theorem nextGet_cons {β : Type} [DecidableEq β] (k d : β)
    (rest : List (β × β)) (x : β) :
    nextGet ((k, d) :: rest) x = if k = x then some d else nextGet rest x := rfl

theorem poLookup_cons {β : Type} [DecidableEq β] (k : β) (p : Nat)
    (rest : List (β × Nat)) (x : β) :
    poLookup ((k, p) :: rest) x =
      if k = x then some p else poLookup rest x := rfl

theorem buildNext_cons_nil {β : Type} (k : β) (rest : Adj β) :
    buildNext ((k, ([] : List β)) :: rest) = buildNext rest := rfl

theorem buildNext_cons_cons {β : Type} (k d : β) (ds : List β) (rest : Adj β) :
    buildNext ((k, d :: ds) :: rest) = (k, d) :: buildNext rest := rfl

theorem nextGet_buildNext_not_mem {β : Type} [DecidableEq β] :
    ∀ (adj : Adj β) (x : β), x ∉ adj.map Prod.fst →
      nextGet (buildNext adj) x = none
  | [], _, _ => rfl
  | (k, ds) :: rest, x, hx => by
    have hxk : k ≠ x := fun h => hx (by rw [h]; exact List.mem_cons_self x _)
    have hxrest : x ∉ rest.map Prod.fst := fun h =>
      hx (List.mem_cons_of_mem _ h)
    cases ds with
    | nil =>
      rw [buildNext_cons_nil]
      exact nextGet_buildNext_not_mem rest x hxrest
    | cons d ds' =>
      rw [buildNext_cons_cons, nextGet_cons, if_neg hxk]
      exact nextGet_buildNext_not_mem rest x hxrest

/-- For a well-formed adjacency map the successor map built by
`find_cycle_functional` is head-of-destination-set lookup. -/
theorem nextGet_buildNext {β : Type} [DecidableEq β] :
    ∀ (adj : Adj β), AdjWF adj →
      ∀ x, nextGet (buildNext adj) x = (adjGet adj x).head?
  | [], _, _ => rfl
  | (k, ds) :: rest, hwf, x => by
    rw [adjGet_cons]
    by_cases hk : k = x
    · rw [if_pos hk]
      subst hk
      have hknotrest : k ∉ rest.map Prod.fst := (List.nodup_cons.1 hwf.1).1
      cases ds with
      | nil =>
        rw [buildNext_cons_nil]
        rw [nextGet_buildNext_not_mem rest k hknotrest]
        rfl
      | cons d ds' =>
        rw [buildNext_cons_cons, nextGet_cons, if_pos rfl]
        rfl
    · rw [if_neg hk]
      cases ds with
      | nil =>
        rw [buildNext_cons_nil]
        exact nextGet_buildNext rest hwf.of_cons x
      | cons d ds' =>
        rw [buildNext_cons_cons, nextGet_cons, if_neg hk]
        exact nextGet_buildNext rest hwf.of_cons x

theorem adjGet_length_le_one {β : Type} [DecidableEq β] {adj : Adj β}
    (hfun : Functional adj) (x : β) : (adjGet adj x).length ≤ 1 := by
  by_cases h : adjGet adj x = []
  · rw [h]; exact Nat.zero_le 1
  · exact hfun (x, adjGet adj x) (adjGet_mem adj x h)

/-- In a well-formed functional graph, edges agree with the successor map. -/
theorem edgeStep_iff_nextGet {β : Type} [DecidableEq β] {adj : Adj β}
    (hwf : AdjWF adj) (hfun : Functional adj) (a b : β) :
    EdgeStep adj a b ↔ nextGet (buildNext adj) a = some b := by
  rw [nextGet_buildNext adj hwf a]
  constructor
  · intro h
    have hmem : b ∈ adjGet adj a := h
    have hlen := adjGet_length_le_one hfun a
    cases hget : adjGet adj a with
    | nil => rw [hget] at hmem; exact absurd hmem (List.not_mem_nil b)
    | cons d t =>
      rw [hget] at hmem hlen
      simp only [List.length_cons] at hlen
      have ht : t = [] := List.length_eq_zero.1 (by omega)
      subst ht
      simp only [List.mem_singleton] at hmem
      subst hmem
      rfl
  · intro h
    show b ∈ adjGet adj a
    exact List.mem_of_mem_head? (by rw [h]; exact rfl)

/-! ## `path_order` chains of the functional walk -/

/-- `poChain nx po pos cur` says that `po` is the `path_order` of a walk of
`pos` steps ending with current node `cur`: positions count down from the
front, the successor of each entry is the entry added after it, and the
successor of the most recent entry is the current node. -/
def poChain {β : Type} [DecidableEq β] (nx : List (β × β)) :
    List (β × Nat) → Nat → Option β → Prop
  | [], pos, _ => pos = 0
  | (v, p) :: rest, pos, cur =>
    pos = p + 1 ∧ nextGet nx v = cur ∧ poChain nx rest p (some v)

theorem poLookup_eq_none {β : Type} [DecidableEq β] :
    ∀ (po : List (β × Nat)) (x : β),
      poLookup po x = none ↔ x ∉ po.map Prod.fst
  | [], x => by simp [poLookup]
  | (k, p) :: rest, x => by
    rw [poLookup_cons]
    by_cases hk : k = x
    · subst hk
      simp
    · rw [if_neg hk, poLookup_eq_none rest x]
      simp only [List.map_cons, List.mem_cons]
      constructor
      · intro hnot hor
        rcases hor with h1 | h2
        · exact hk h1.symm
        · exact hnot h2
      · intro hnot h2
        exact hnot (Or.inr h2)

theorem poChain_length {β : Type} [DecidableEq β] (nx : List (β × β)) :
    ∀ (po : List (β × Nat)) (pos : Nat) (cur : Option β),
      poChain nx po pos cur → po.length = pos
  | [], _, _, h => h.symm
  | (v, p) :: rest, pos, cur, h => by
    rw [List.length_cons, poChain_length nx rest p (some v) h.2.2, h.1]

theorem poChain_chain {β : Type} [DecidableEq β] (nx : List (β × β)) :
    ∀ (po : List (β × Nat)) (pos : Nat) (cur : Option β),
      poChain nx po pos cur →
      List.Chain' (fun a b => nextGet nx a = some b) (po.map Prod.fst).reverse
  | [], _, _, _ => List.chain'_nil
  | (v, p) :: rest, pos, cur, h => by
    simp only [List.map_cons, List.reverse_cons]
    rw [List.chain'_append]
    refine ⟨poChain_chain nx rest p (some v) h.2.2, List.chain'_singleton v, ?_⟩
    intro y hy z hz
    simp only [List.head?_cons, Option.mem_def, Option.some.injEq] at hz
    subst hz
    cases rest with
    | nil => simp at hy
    | cons e rest' =>
      obtain ⟨w, q⟩ := e
      simp only [List.map_cons, List.reverse_cons, List.getLast?_concat,
        Option.mem_def, Option.some.injEq] at hy
      subst hy
      exact h.2.2.2.1

theorem poChain_last {β : Type} [DecidableEq β] (nx : List (β × β)) :
    ∀ (po : List (β × Nat)) (pos : Nat) (cur : Option β),
      poChain nx po pos cur →
      ∀ a ∈ (po.map Prod.fst).reverse.getLast?, nextGet nx a = cur
  | [], _, _, _, a, ha => by simp at ha
  | (v, p) :: rest, pos, cur, h, a, ha => by
    simp only [List.map_cons, List.reverse_cons, List.getLast?_concat,
      Option.mem_def, Option.some.injEq] at ha
    subst ha
    exact h.2.1

theorem poChain_lookup {β : Type} [DecidableEq β] (nx : List (β × β)) :
    ∀ (po : List (β × Nat)) (pos : Nat) (cur : Option β),
      poChain nx po pos cur →
      ∀ (v : β) (p : Nat), poLookup po v = some p →
        p < pos ∧ ((po.map Prod.fst).reverse)[p]? = some v
  | [], _, _, _, v, p, hl => by cases hl
  | (w, q) :: rest, pos, cur, h, v, p, hl => by
    obtain ⟨hpos, hnext, hrest⟩ := h
    have hrestlen : rest.length = q := poChain_length nx rest q (some w) hrest
    rw [poLookup_cons] at hl
    by_cases hw : w = v
    · rw [if_pos hw] at hl
      cases hl
      subst hw
      constructor
      · omega
      · simp only [List.map_cons, List.reverse_cons]
        have hlen2 : (rest.map Prod.fst).reverse.length = q := by
          simpa using hrestlen
        rw [← hlen2]
        exact List.getElem?_concat_length _ _
    · rw [if_neg hw] at hl
      obtain ⟨hp, hget⟩ := poChain_lookup nx rest q (some w) hrest v p hl
      constructor
      · omega
      · simp only [List.map_cons, List.reverse_cons]
        rw [List.getElem?_append_left (by simpa using by omega)]
        exact hget

/-! ## Soundness of the functional walk -/

/-- A simple cycle of the successor map `nx`. -/
def NextCycle {β : Type} [DecidableEq β] (nx : List (β × β)) (c : List β) :
    Prop :=
  2 ≤ c.length ∧ c.Nodup ∧
    List.Chain' (fun a b => nextGet nx a = some b) c ∧
    ∀ a ∈ c.getLast?, ∀ b ∈ c.head?, nextGet nx a = some b

/-- For well-formed functional graphs, cycles of the successor map are
exactly the simple cycles of the graph. -/
theorem nextCycle_iff_isCycle {β : Type} [DecidableEq β] {adj : Adj β}
    (hwf : AdjWF adj) (hfun : Functional adj) (c : List β) :
    NextCycle (buildNext adj) c ↔ IsCycle adj c := by
  constructor
  · rintro ⟨h1, h2, h3, h4⟩
    refine ⟨h1, h2, ?_, ?_⟩
    · exact h3.imp (fun a b h => (edgeStep_iff_nextGet hwf hfun a b).2 h)
    · intro a ha b hb
      exact (edgeStep_iff_nextGet hwf hfun a b).2 (h4 a ha b hb)
  · rintro ⟨h1, h2, h3, h4⟩
    refine ⟨h1, h2, ?_, ?_⟩
    · exact h3.imp (fun a b h => (edgeStep_iff_nextGet hwf hfun a b).1 h)
    · intro a ha b hb
      exact (edgeStep_iff_nextGet hwf hfun a b).1 (h4 a ha b hb)

theorem walkAux_zero {β : Type} [DecidableEq β] (nx : List (β × β))
    (gvis : List β) (cur : Option β) (po : List (β × Nat)) (pos : Nat) :
    walkAux nx gvis 0 cur po pos = (0, po.map Prod.fst) := rfl

theorem walkAux_none {β : Type} [DecidableEq β] (nx : List (β × β))
    (gvis : List β) (fuel : Nat) (po : List (β × Nat)) (pos : Nat) :
    walkAux nx gvis (fuel + 1) none po pos = (0, po.map Prod.fst) := rfl

theorem walkAux_some {β : Type} [DecidableEq β] (nx : List (β × β))
    (gvis : List β) (fuel : Nat) (cur : β) (po : List (β × Nat)) (pos : Nat) :
    walkAux nx gvis (fuel + 1) (some cur) po pos =
      if cur ∈ gvis then (0, po.map Prod.fst)
      else
        match poLookup po cur with
        | some p => (pos - p, po.map Prod.fst)
        | none =>
          walkAux nx gvis fuel (nextGet nx cur) ((cur, pos) :: po) (pos + 1) :=
  rfl

/-- The nodes a walk reports as visited include everything already in its
`path_order`. -/
theorem walkAux_visited {β : Type} [DecidableEq β] (nx : List (β × β))
    (gvis : List β) :
    ∀ (fuel : Nat) (cur : Option β) (po : List (β × Nat)) (pos : Nat),
      ∀ x ∈ po.map Prod.fst, x ∈ (walkAux nx gvis fuel cur po pos).2 := by
  intro fuel
  induction fuel with
  | zero => intro cur po pos x hx; exact hx
  | succ f ih =>
    intro cur po pos x hx
    cases cur with
    | none => exact hx
    | some cur =>
      rw [walkAux_some]
      by_cases hg : cur ∈ gvis
      · rw [if_pos hg]; exact hx
      · rw [if_neg hg]
        cases hl : poLookup po cur with
        | some p => exact hx
        | none =>
          dsimp only
          exact ih _ _ _ x (List.mem_cons_of_mem cur hx)

theorem getLast?_drop_of_lt {α : Type} :
    ∀ (l : List α) (p : Nat), p < l.length →
      (l.drop p).getLast? = l.getLast?
  | l, 0, _ => by rw [List.drop_zero]
  | [], p + 1, h => by simp at h
  | a :: t, p + 1, h => by
    rw [List.drop_succ_cons]
    have ht : p < t.length := by
      simp only [List.length_cons] at h
      omega
    rw [getLast?_drop_of_lt t p ht]
    cases t with
    | nil => simp at ht
    | cons b t' => rw [List.getLast?_cons_cons]

/-- Soundness of one walk: a detected value of at least 2 is the length of a
genuine simple cycle of the successor map. -/
theorem walkAux_sound {β : Type} [DecidableEq β] (nx : List (β × β))
    (gvis : List β) :
    ∀ (fuel : Nat) (cur : Option β) (po : List (β × Nat)) (pos : Nat),
      poChain nx po pos cur → (po.map Prod.fst).Nodup →
      2 ≤ (walkAux nx gvis fuel cur po pos).1 →
      ∃ c, NextCycle nx c ∧ c.length = (walkAux nx gvis fuel cur po pos).1 := by
  intro fuel
  induction fuel with
  | zero =>
    intro cur po pos _ _ h2
    rw [walkAux_zero] at h2
    simp at h2
  | succ f ih =>
    intro cur po pos hchain hnodup h2
    cases cur with
    | none =>
      rw [walkAux_none] at h2
      simp at h2
    | some cur =>
      rw [walkAux_some] at h2 ⊢
      by_cases hg : cur ∈ gvis
      · rw [if_pos hg] at h2
        simp at h2
      · rw [if_neg hg] at h2 ⊢
        cases hl : poLookup po cur with
        | none =>
          rw [hl] at h2
          dsimp only at h2 ⊢
          refine ih (nextGet nx cur) ((cur, pos) :: po) (pos + 1)
            ⟨rfl, rfl, hchain⟩ ?_ h2
          rw [List.map_cons, List.nodup_cons]
          exact ⟨(poLookup_eq_none po cur).1 hl, hnodup⟩
        | some p =>
          rw [hl] at h2
          dsimp only at h2 ⊢
          obtain ⟨hp, hget⟩ := poChain_lookup nx po pos (some cur) hchain cur p hl
          have hseqlen : (po.map Prod.fst).reverse.length = pos := by
            simpa using poChain_length nx po pos _ hchain
          have hplt : p < (po.map Prod.fst).reverse.length := by omega
          refine ⟨(po.map Prod.fst).reverse.drop p, ⟨?_, ?_, ?_, ?_⟩, ?_⟩
          · rw [List.length_drop, hseqlen]
            exact h2
          · exact (List.drop_sublist p _).nodup (List.nodup_reverse.2 hnodup)
          · rw [List.chain'_iff_get]
            intro i hi
            have hchain' := (List.chain'_iff_get.1
              (poChain_chain nx po pos _ hchain)) (p + i)
              (by
                rw [List.length_drop, hseqlen] at hi
                omega)
            simp only [List.get_eq_getElem, List.getElem_drop]
            simp only [List.get_eq_getElem] at hchain'
            exact hchain'
          · intro a ha b hb
            rw [getLast?_drop_of_lt _ p hplt] at ha
            have hnext := poChain_last nx po pos (some cur) hchain a ha
            have hhead : ((po.map Prod.fst).reverse.drop p).head? = some cur := by
              rw [List.head?_eq_getElem?, List.getElem?_drop, Nat.add_zero]
              exact hget
            rw [hhead] at hb
            simp only [Option.mem_def, Option.some.injEq] at hb
            rw [hb] at hnext
            exact hnext
          · rw [List.length_drop, hseqlen]

/-! ## Completeness of the functional walk -/

/-- The `path_order` entries created while walking the node list `l`,
starting at position `q` (most recent entry first). -/
def mkC {β : Type} : List β → Nat → List (β × Nat)
  | [], _ => []
  | v :: t, q => mkC t (q + 1) ++ [(v, q)]

theorem mkC_append_singleton {β : Type} :
    ∀ (done : List β) (v : β) (q : Nat),
      mkC (done ++ [v]) q = (v, q + done.length) :: mkC done q
  | [], v, q => by simp [mkC]
  | d :: t, v, q => by
    show mkC (t ++ [v]) (q + 1) ++ [(d, q)] = _
    rw [mkC_append_singleton t v (q + 1)]
    show (v, q + 1 + t.length) :: (mkC t (q + 1) ++ [(d, q)]) = _
    have harith : q + 1 + t.length = q + (d :: t).length := by
      simp only [List.length_cons]
      omega
    rw [harith]
    rfl

theorem mkC_keys {β : Type} :
    ∀ (l : List β) (q : Nat), (mkC l q).map Prod.fst = l.reverse
  | [], _ => rfl
  | v :: t, q => by
    simp only [mkC, List.map_append, List.reverse_cons, mkC_keys t (q + 1)]
    rfl

theorem poLookup_append_of_not_mem {β : Type} [DecidableEq β] :
    ∀ (l1 l2 : List (β × Nat)) (x : β), x ∉ l1.map Prod.fst →
      poLookup (l1 ++ l2) x = poLookup l2 x
  | [], _, _, _ => rfl
  | (k, p) :: rest, l2, x, hx => by
    have hk : k ≠ x := fun h => hx (by rw [h]; exact List.mem_cons_self x _)
    show poLookup ((k, p) :: (rest ++ l2)) x = _
    rw [poLookup_cons, if_neg hk]
    exact poLookup_append_of_not_mem rest l2 x fun h =>
      hx (List.mem_cons_of_mem _ h)

theorem poLookup_state_none {β : Type} [DecidableEq β] (done : List β)
    (q0 : Nat) (po₀ : List (β × Nat)) (cur : β) (hdone : cur ∉ done)
    (hpo₀ : poLookup po₀ cur = none) :
    poLookup (mkC done q0 ++ po₀) cur = none := by
  rw [poLookup_append_of_not_mem _ _ _ (by rw [mkC_keys]; simpa using hdone)]
  exact hpo₀

theorem poLookup_mkC_head {β : Type} [DecidableEq β] (c0 : β) (ct : List β)
    (q : Nat) (po₀ : List (β × Nat)) (hnotin : c0 ∉ ct) :
    poLookup (mkC (c0 :: ct) q ++ po₀) c0 = some q := by
  show poLookup ((mkC ct (q + 1) ++ [(c0, q)]) ++ po₀) c0 = some q
  rw [List.append_assoc,
    poLookup_append_of_not_mem _ _ _ (by rw [mkC_keys]; simpa using hnotin)]
  show poLookup ((c0, q) :: po₀) c0 = some q
  rw [poLookup_cons, if_pos rfl]

theorem chain'_middle {β : Type} (R : β → β → Prop) (l1 l2 : List β)
    (a b : β) (h : List.Chain' R (l1 ++ a :: b :: l2)) : R a b :=
  (List.chain'_cons.1 (List.chain'_append.1 h).2.1).1

/-- Completeness of one walk: once the walk stands on a node of a cycle that
is disjoint from the globally-visited set and from the pre-entry
`path_order`, it runs around the cycle and detects exactly its length. -/
theorem walkAux_entered {β : Type} [DecidableEq β] (nx : List (β × β))
    (gvis : List β) (c : List β) (hcyc : NextCycle nx c)
    (hgvis : ∀ x ∈ c, x ∉ gvis) (po₀ : List (β × Nat))
    (hpo₀ : ∀ x ∈ c, poLookup po₀ x = none) (q0 : Nat) :
    ∀ (rtail done : List β) (cur : β) (fuel : Nat),
      c = done ++ cur :: rtail →
      rtail.length + 2 ≤ fuel →
      (walkAux nx gvis fuel (some cur) (mkC done q0 ++ po₀)
        (q0 + done.length)).1 = c.length := by
  intro rtail
  induction rtail with
  | nil =>
    intro done cur fuel hsplit hfuel
    obtain ⟨f, rfl, hf1⟩ : ∃ f, fuel = f + 1 ∧ 1 ≤ f := by
      cases fuel with
      | zero => simp at hfuel
      | succ f => exact ⟨f, rfl, by simp at hfuel; omega⟩
    have hnodup := hcyc.2.1
    have hcurc : cur ∈ c := by rw [hsplit]; simp
    have hcurdone : cur ∉ done := by
      rw [hsplit] at hnodup
      have := (List.nodup_append.1 hnodup).2.2
      intro hmem
      exact this hmem (List.mem_cons_self cur [])
    rw [walkAux_some, if_neg (hgvis cur hcurc)]
    rw [poLookup_state_none done q0 po₀ cur hcurdone (hpo₀ cur hcurc)]
    dsimp only
    -- the successor of cur is the head of the cycle
    obtain ⟨d0, dtail, rfl⟩ : ∃ d0 dtail, done = d0 :: dtail := by
      cases done with
      | nil =>
        rw [hsplit] at hcyc
        have := hcyc.1
        simp at this
      | cons d0 dtail => exact ⟨d0, dtail, rfl⟩
    have hhead : c.head? = some d0 := by rw [hsplit]; rfl
    have hlast : c.getLast? = some cur := by
      rw [hsplit]
      exact List.getLast?_concat _
    have hnext : nextGet nx cur = some d0 :=
      hcyc.2.2.2 cur (by rw [hlast]; exact rfl) d0 (by rw [hhead]; exact rfl)
    rw [hnext]
    have hpomk : ((cur, q0 + (d0 :: dtail).length) :: mkC (d0 :: dtail) q0) =
        mkC ((d0 :: dtail) ++ [cur]) q0 := (mkC_append_singleton _ cur q0).symm
    obtain ⟨g, rfl⟩ : ∃ g, f = g + 1 := by
      cases f with
      | zero => omega
      | succ g => exact ⟨g, rfl⟩
    have hd0c : d0 ∈ c := by rw [hsplit]; simp
    have hd0rest : d0 ∉ dtail ++ [cur] := by
      rw [hsplit] at hnodup
      simp only [List.cons_append, List.nodup_cons] at hnodup
      exact hnodup.1
    show (walkAux nx gvis (g + 1) (some d0)
      ((cur, q0 + (d0 :: dtail).length) :: (mkC (d0 :: dtail) q0 ++ po₀))
      (q0 + (d0 :: dtail).length + 1)).1 = c.length
    rw [walkAux_some, if_neg (hgvis d0 hd0c)]
    have hlookup : poLookup
        ((cur, q0 + (d0 :: dtail).length) :: (mkC (d0 :: dtail) q0 ++ po₀)) d0 =
        some q0 := by
      have hassoc : ((cur, q0 + (d0 :: dtail).length) ::
          (mkC (d0 :: dtail) q0 ++ po₀)) =
          mkC ((d0 :: dtail) ++ [cur]) q0 ++ po₀ := by
        rw [← List.cons_append, hpomk]
      rw [hassoc]
      have : (d0 :: dtail) ++ [cur] = d0 :: (dtail ++ [cur]) := by simp
      rw [this]
      exact poLookup_mkC_head d0 (dtail ++ [cur]) q0 po₀ hd0rest
    rw [hlookup]
    dsimp only
    rw [hsplit]
    simp only [List.length_append, List.length_cons, List.length_nil]
    omega
  | cons v rtail' ih =>
    intro done cur fuel hsplit hfuel
    obtain ⟨f, rfl⟩ : ∃ f, fuel = f + 1 := by
      cases fuel with
      | zero => simp at hfuel
      | succ f => exact ⟨f, rfl⟩
    have hnodup := hcyc.2.1
    have hcurc : cur ∈ c := by rw [hsplit]; simp
    have hcurdone : cur ∉ done := by
      rw [hsplit] at hnodup
      have := (List.nodup_append.1 hnodup).2.2
      intro hmem
      exact this hmem (List.mem_cons_self cur _)
    rw [walkAux_some, if_neg (hgvis cur hcurc)]
    rw [poLookup_state_none done q0 po₀ cur hcurdone (hpo₀ cur hcurc)]
    dsimp only
    have hnext : nextGet nx cur = some v := by
      refine chain'_middle (fun a b => nextGet nx a = some b) done rtail'
        cur v ?_
      rw [← hsplit]
      exact hcyc.2.2.1
    rw [hnext]
    have hstep := ih (done ++ [cur]) v f
      (by rw [hsplit]; simp)
      (by simp only [List.length_cons] at hfuel; omega)
    rw [mkC_append_singleton, List.length_append] at hstep
    simp only [List.length_singleton] at hstep
    have harith : q0 + (done.length + 1) = q0 + done.length + 1 := by omega
    rw [harith] at hstep
    exact hstep

theorem nextGet_some_mem_snd {β : Type} [DecidableEq β] :
    ∀ (nx : List (β × β)) (x y : β), nextGet nx x = some y →
      y ∈ nx.map Prod.snd
  | [], _, _, h => by cases h
  | (k, d) :: rest, x, y, h => by
    rw [nextGet_cons] at h
    by_cases hk : k = x
    · rw [if_pos hk] at h
      cases h
      exact List.mem_cons_self _ _
    · rw [if_neg hk] at h
      exact List.mem_cons_of_mem _ (nextGet_some_mem_snd rest x y h)

theorem nextGet_some_mem_fst {β : Type} [DecidableEq β] :
    ∀ (nx : List (β × β)) (x y : β), nextGet nx x = some y →
      x ∈ nx.map Prod.fst
  | [], _, _, h => by cases h
  | (k, d) :: rest, x, y, h => by
    rw [nextGet_cons] at h
    by_cases hk : k = x
    · subst hk
      exact List.mem_cons_self _ _
    · rw [if_neg hk] at h
      exact List.mem_cons_of_mem _ (nextGet_some_mem_fst rest x y h)

theorem mem_allNodes_of_fst {β : Type} [DecidableEq β] {nx : List (β × β)}
    {x : β} (h : x ∈ nx.map Prod.fst) : x ∈ allNodes nx :=
  List.mem_dedup.2 (List.mem_append.2 (Or.inl h))

theorem mem_allNodes_of_snd {β : Type} [DecidableEq β] {nx : List (β × β)}
    {x : β} (h : x ∈ nx.map Prod.snd) : x ∈ allNodes nx :=
  List.mem_dedup.2 (List.mem_append.2 (Or.inr h))

/-- If a walk (whose `path_order` is disjoint from the cycle) ever visits a
node of a cycle that is disjoint from the globally-visited set, then the walk
detects exactly that cycle's length. -/
theorem walkAux_meets_cycle {β : Type} [DecidableEq β] (nx : List (β × β))
    (gvis : List β) (c : List β) (hcyc : NextCycle nx c)
    (hrotate : ∀ k, NextCycle nx (c.rotate k))
    (hgvis : ∀ x ∈ c, x ∉ gvis) :
    ∀ (fuel : Nat) (cur : Option β) (po : List (β × Nat)) (pos : Nat),
      (∀ x ∈ c, poLookup po x = none) →
      (po.map Prod.fst).Nodup →
      (∀ k ∈ po.map Prod.fst, k ∈ allNodes nx) →
      (∀ u, cur = some u → u ∈ allNodes nx) →
      (allNodes nx).length + 1 ≤ fuel + po.length →
      (∃ x ∈ c, x ∈ (walkAux nx gvis fuel cur po pos).2) →
      (walkAux nx gvis fuel cur po pos).1 = c.length := by
  have hcsub : ∀ x ∈ c, x ∈ allNodes nx := by
    intro x hx
    -- every cycle node has a successor, so it is a key of nx
    have hk : c.indexOf x < c.length := List.indexOf_lt_length.2 hx
    have hhead : (c.rotate (c.indexOf x)).head? = some x := by
      rw [List.head?_rotate hk]
      exact List.getElem?_indexOf hx
    obtain ⟨h2, _, hchain, hclose⟩ := hrotate (c.indexOf x)
    cases hcr : c.rotate (c.indexOf x) with
    | nil => rw [hcr] at hhead; cases hhead
    | cons hd q =>
      rw [hcr] at hhead h2 hchain hclose
      simp only [List.head?_cons, Option.some.injEq] at hhead
      subst hhead
      cases q with
      | nil => simp at h2
      | cons w t =>
        exact mem_allNodes_of_fst
          (nextGet_some_mem_fst nx hd w (List.chain'_cons.1 hchain).1)
  intro fuel
  induction fuel with
  | zero =>
    intro cur po pos hpo hnodup _ _ _ hvisit
    obtain ⟨x, hxc, hxv⟩ := hvisit
    rw [walkAux_zero] at hxv
    exact absurd hxv ((poLookup_eq_none po x).1 (hpo x hxc))
  | succ f ih =>
    intro cur po pos hpo hnodup hpoall hcur hbudget hvisit
    cases cur with
    | none =>
      obtain ⟨x, hxc, hxv⟩ := hvisit
      rw [walkAux_none] at hxv
      exact absurd hxv ((poLookup_eq_none po x).1 (hpo x hxc))
    | some u =>
      by_cases hg : u ∈ gvis
      · obtain ⟨x, hxc, hxv⟩ := hvisit
        rw [walkAux_some, if_pos hg] at hxv
        exact absurd hxv ((poLookup_eq_none po x).1 (hpo x hxc))
      · cases hl : poLookup po u with
        | some p =>
          obtain ⟨x, hxc, hxv⟩ := hvisit
          rw [walkAux_some, if_neg hg, hl] at hxv
          exact absurd hxv ((poLookup_eq_none po x).1 (hpo x hxc))
        | none =>
          have hres : walkAux nx gvis (f + 1) (some u) po pos =
              walkAux nx gvis f (nextGet nx u) ((u, pos) :: po) (pos + 1) := by
            rw [walkAux_some, if_neg hg, hl]
          by_cases huc : u ∈ c
          · -- the walk has entered the cycle: rotate it to start at u
            have hk : c.indexOf u < c.length := List.indexOf_lt_length.2 huc
            have hhead : (c.rotate (c.indexOf u)).head? = some u := by
              rw [List.head?_rotate hk]
              exact List.getElem?_indexOf huc
            obtain ⟨rtail, hcr⟩ : ∃ rtail,
                c.rotate (c.indexOf u) = u :: rtail := by
              cases hcr : c.rotate (c.indexOf u) with
              | nil => rw [hcr] at hhead; cases hhead
              | cons hd q =>
                rw [hcr] at hhead
                simp only [List.head?_cons, Option.some.injEq] at hhead
                exact ⟨q, by rw [hhead]⟩
            have hlenrot : (u :: rtail).length = c.length := by
              rw [← hcr]
              exact List.length_rotate c _
            have hmemrot : ∀ x ∈ u :: rtail, x ∈ c := by
              intro x hx
              rw [← hcr] at hx
              exact List.mem_rotate.1 hx
            -- the fuel suffices because cycle and path_order are disjoint
            have hdisj : (c ++ po.map Prod.fst).Nodup := by
              rw [List.nodup_append]
              refine ⟨hcyc.2.1, hnodup, ?_⟩
              intro x hx hx'
              exact absurd hx' ((poLookup_eq_none po x).1 (hpo x hx))
            have hsub : (c ++ po.map Prod.fst) ⊆ allNodes nx := by
              intro x hx
              rcases List.mem_append.1 hx with h | h
              · exact hcsub x h
              · exact hpoall x h
            have hlenle := (List.subperm_of_subset hdisj hsub).length_le
            rw [List.length_append] at hlenle
            have hfuel : rtail.length + 2 ≤ f + 1 := by
              have hmaplen : (po.map Prod.fst).length = po.length := by simp
              have hcl : rtail.length + 1 = c.length := by simpa using hlenrot
              omega
            have hw2 := walkAux_entered nx gvis (u :: rtail)
              (hcr ▸ hrotate (c.indexOf u))
              (fun x hx => hgvis x (hmemrot x hx)) po
              (fun x hx => hpo x (hmemrot x hx)) pos rtail [] u (f + 1)
              rfl hfuel
            simp only [mkC, List.nil_append, List.length_nil,
              Nat.add_zero] at hw2
            rw [hw2, hlenrot]
          · -- not yet on the cycle: step and recurse
            rw [hres] at hvisit ⊢
            refine ih (nextGet nx u) ((u, pos) :: po) (pos + 1) ?_ ?_ ?_ ?_ ?_
              hvisit
            · intro x hx
              rw [poLookup_cons, if_neg (fun h => huc (by rw [h]; exact hx))]
              exact hpo x hx
            · rw [List.map_cons, List.nodup_cons]
              exact ⟨(poLookup_eq_none po u).1 hl, hnodup⟩
            · intro k hk
              rcases List.mem_cons.1 hk with h | h
              · exact h ▸ hcur u rfl
              · exact hpoall k h
            · intro w hw
              exact mem_allNodes_of_snd (nextGet_some_mem_snd nx u w hw)
            · simp only [List.length_cons]
              omega

/-! ## The outer loop of `find_cycle_functional` -/

theorem funcLoop_nil {β : Type} [DecidableEq β] (nx : List (β × β))
    (fuel : Nat) (gvis : List β) (longest : Nat) :
    funcLoop nx fuel [] gvis longest = longest := rfl

theorem funcLoop_cons {β : Type} [DecidableEq β] (nx : List (β × β))
    (fuel : Nat) (s : β) (rest gvis : List β) (longest : Nat) :
    funcLoop nx fuel (s :: rest) gvis longest =
      if s ∈ gvis then funcLoop nx fuel rest gvis longest
      else
        funcLoop nx fuel rest (gvis ++ (walkAux nx gvis fuel (some s) [] 0).2)
          (if 2 ≤ (walkAux nx gvis fuel (some s) [] 0).1 ∧
              longest < (walkAux nx gvis fuel (some s) [] 0).1 then
            (walkAux nx gvis fuel (some s) [] 0).1
          else longest) := rfl

/-- Every node of a cycle of a well-formed functional graph belongs to the
walk's node universe. -/
theorem cycle_mem_allNodes {β : Type} [DecidableEq β] {adj : Adj β}
    (hwf : AdjWF adj) (hfun : Functional adj) {c : List β}
    (hc : IsCycle adj c) {x : β} (hx : x ∈ c) :
    x ∈ allNodes (buildNext adj) := by
  obtain ⟨y, hy⟩ := cycle_node_edge hc hx
  exact mem_allNodes_of_fst (nextGet_some_mem_fst _ x y
    ((edgeStep_iff_nextGet hwf hfun x y).1 hy))

/-- The main induction over the start nodes of `find_cycle_functional`:
the running longest stays a genuine cycle length, and every cycle touching
the globally-visited set or the remaining starts is accounted for. -/
theorem funcLoop_spec {β : Type} [DecidableEq β] (adj : Adj β)
    (hwf : AdjWF adj) (hfun : Functional adj) :
    ∀ (starts gvis : List β) (longest : Nat),
      (∀ x ∈ starts, x ∈ allNodes (buildNext adj)) →
      GoodVal adj longest →
      (∀ c, IsCycle adj c → (∃ x ∈ c, x ∈ gvis) → c.length ≤ longest) →
      GoodVal adj (funcLoop (buildNext adj)
        ((allNodes (buildNext adj)).length + 1) starts gvis longest) ∧
      (∀ c, IsCycle adj c → (∃ x ∈ c, x ∈ gvis ∨ x ∈ starts) →
        c.length ≤ funcLoop (buildNext adj)
          ((allNodes (buildNext adj)).length + 1) starts gvis longest) := by
  intro starts
  induction starts with
  | nil =>
    intro gvis longest _ hgood hcovered
    rw [funcLoop_nil]
    refine ⟨hgood, ?_⟩
    intro c hc ⟨x, hxc, hx⟩
    rcases hx with hx | hx
    · exact hcovered c hc ⟨x, hxc, hx⟩
    · exact absurd hx (List.not_mem_nil x)
  | cons s rest ih =>
    intro gvis longest hstarts hgood hcovered
    rw [funcLoop_cons]
    by_cases hsg : s ∈ gvis
    · rw [if_pos hsg]
      obtain ⟨h1, h2⟩ := ih gvis longest
        (fun x hx => hstarts x (List.mem_cons_of_mem s hx)) hgood hcovered
      refine ⟨h1, ?_⟩
      intro c hc ⟨x, hxc, hx⟩
      refine h2 c hc ⟨x, hxc, ?_⟩
      rcases hx with hx | hx
      · exact Or.inl hx
      · rcases List.mem_cons.1 hx with rfl | hx'
        · exact Or.inl hsg
        · exact Or.inr hx'
    · rw [if_neg hsg]
      have hsall : s ∈ allNodes (buildNext adj) :=
        hstarts s (List.mem_cons_self s rest)
      set nx := buildNext adj with hnx
      set fuel := (allNodes nx).length + 1 with hfuel
      set r := walkAux nx gvis fuel (some s) [] 0 with hr
      set longest' := if 2 ≤ r.1 ∧ longest < r.1 then r.1 else longest
        with hlongest'
      have hlongle : longest ≤ longest' := by
        rw [hlongest']
        split_ifs with h
        · omega
        · exact le_refl _
      have hgood' : GoodVal adj longest' := by
        rw [hlongest']
        split_ifs with h
        · obtain ⟨c', hc', hlen⟩ := walkAux_sound nx gvis fuel (some s) [] 0
            rfl List.nodup_nil h.1
          exact Or.inr ⟨c', (nextCycle_iff_isCycle hwf hfun c').1 hc', hlen⟩
        · exact hgood
      have hsvis : s ∈ r.2 := by
        have hrstep : r = walkAux nx gvis ((allNodes nx).length)
            (nextGet nx s) [(s, 0)] 1 := by
          rw [hr, hfuel, walkAux_some, if_neg hsg]
          rfl
        rw [hrstep]
        exact walkAux_visited nx gvis _ _ _ _ s (by simp)
      have hcovered' : ∀ c, IsCycle adj c → (∃ x ∈ c, x ∈ gvis ++ r.2) →
          c.length ≤ longest' := by
        intro c hc ⟨x, hxc, hx⟩
        rcases List.mem_append.1 hx with hx | hx
        · exact le_trans (hcovered c hc ⟨x, hxc, hx⟩) hlongle
        · by_cases hgv : ∃ y ∈ c, y ∈ gvis
          · exact le_trans (hcovered c hc hgv) hlongle
          · push_neg at hgv
            have hcycnx : NextCycle nx c :=
              (nextCycle_iff_isCycle hwf hfun c).2 hc
            have hrot : ∀ k, NextCycle nx (c.rotate k) := fun k =>
              (nextCycle_iff_isCycle hwf hfun _).2 (hc.rotate k)
            have hmeets := walkAux_meets_cycle nx gvis c hcycnx hrot hgv
              fuel (some s) [] 0 (fun y _ => rfl) List.nodup_nil
              (by simp)
              (fun u hu => by
                cases hu
                exact hsall)
              (by rw [hfuel]; simp)
              ⟨x, hxc, hx⟩
            rw [← hr] at hmeets
            have h2c : 2 ≤ c.length := hc.1
            rw [hlongest']
            split_ifs with h
            · omega
            · rw [Classical.not_and_iff_or_not_not] at h
              rcases h with h | h
              · omega
              · omega
      obtain ⟨h1, h2⟩ := ih (gvis ++ r.2) longest'
        (fun x hx => hstarts x (List.mem_cons_of_mem s hx)) hgood' hcovered'
      refine ⟨h1, ?_⟩
      intro c hc ⟨x, hxc, hx⟩
      refine h2 c hc ⟨x, hxc, ?_⟩
      rcases hx with hx | hx
      · exact Or.inl (List.mem_append.2 (Or.inl hx))
      · rcases List.mem_cons.1 hx with rfl | hx'
        · exact Or.inl (List.mem_append.2 (Or.inr hsvis))
        · exact Or.inr hx'

/-- The full specification of `find_cycle_functional` on well-formed
functional graphs: it returns the length of the longest simple cycle, or 0
when there is none. -/
theorem find_cycle_functional_spec {β : Type} [DecidableEq β] (adj : Adj β)
    (hwf : AdjWF adj) (hfun : Functional adj) :
    (∀ c, IsCycle adj c → c.length ≤ find_cycle_functional adj) ∧
    (find_cycle_functional adj = 0 ∨
      ∃ c, IsCycle adj c ∧ c.length = find_cycle_functional adj) := by
  simp only [find_cycle_functional]
  by_cases h : (buildNext adj).isEmpty
  · rw [if_pos h]
    refine ⟨?_, Or.inl rfl⟩
    intro c hc
    obtain ⟨x, hx⟩ := List.exists_mem_of_ne_nil c
      (by intro hnil; rw [hnil] at hc; simp [IsCycle] at hc)
    have := cycle_mem_allNodes hwf hfun hc hx
    rw [List.isEmpty_iff.1 h] at this
    simp [allNodes] at this
  · rw [if_neg h]
    obtain ⟨h1, h2⟩ := funcLoop_spec adj hwf hfun (allNodes (buildNext adj))
      [] 0 (fun x hx => hx) (Or.inl rfl)
      (fun c _ hex => by
        obtain ⟨x, _, hx⟩ := hex
        exact absurd hx (List.not_mem_nil x))
    refine ⟨?_, h1⟩
    intro c hc
    obtain ⟨x, hx⟩ := List.exists_mem_of_ne_nil c
      (by intro hnil; rw [hnil] at hc; simp [IsCycle] at hc)
    exact h2 c hc ⟨x, hx, Or.inr (cycle_mem_allNodes hwf hfun hc hx)⟩

/-! ## Lemmas about grouped adjacency construction (C8) -/

/-- A single directed edge of a grouped adjacency structure. -/
def hasEdge (st : GroupedAdjacency) (g : GroupKey) (s d : ByteStr) : Prop :=
  d ∈ adjGet (groupedGet st g) s

instance (st : GroupedAdjacency) (g : GroupKey) (s d : ByteStr) :
    Decidable (hasEdge st g s d) := by
  unfold hasEdge; infer_instance

theorem mem_setInsert {β : Type} [DecidableEq β] (l : List β) (d x : β) :
    x ∈ setInsert l d ↔ x ∈ l ∨ x = d := by
  rw [setInsert]
  by_cases h : d ∈ l
  · rw [if_pos h]
    constructor
    · exact Or.inl
    · rintro (hx | rfl)
      · exact hx
      · exact h
  · rw [if_neg h]
    simp

theorem setInsert_nodup {β : Type} [DecidableEq β] (l : List β) (d : β)
    (h : l.Nodup) : (setInsert l d).Nodup := by
  rw [setInsert]
  by_cases hd : d ∈ l
  · rw [if_pos hd]; exact h
  · rw [if_neg hd]
    rw [List.nodup_append]
    exact ⟨h, List.nodup_singleton d, fun x hx hmem => by
      rw [List.mem_singleton] at hmem
      exact hd (hmem ▸ hx)⟩

theorem setInsert_of_mem {β : Type} [DecidableEq β] {l : List β} {d : β}
    (h : d ∈ l) : setInsert l d = l := by
  rw [setInsert, if_pos h]

theorem setInsert_length_of_not_mem {β : Type} [DecidableEq β] {l : List β}
    {d : β} (h : d ∉ l) : (setInsert l d).length = l.length + 1 := by
  rw [setInsert, if_neg h]
  simp

theorem adjGet_adjInsert_self {β : Type} [DecidableEq β] :
    ∀ (adj : Adj β) (s d : β),
      adjGet (adjInsert adj s d) s = setInsert (adjGet adj s) d
  | [], s, d => by
    show adjGet [(s, [d])] s = setInsert [] d
    rw [adjGet_cons, if_pos rfl, setInsert, if_neg (List.not_mem_nil d)]
    rfl
  | (k, ds) :: rest, s, d => by
    rw [adjInsert]
    by_cases hk : k = s
    · rw [if_pos hk, adjGet_cons, if_pos hk, adjGet_cons, if_pos hk]
    · rw [if_neg hk, adjGet_cons, if_neg hk, adjGet_cons, if_neg hk]
      exact adjGet_adjInsert_self rest s d

theorem adjGet_adjInsert_other {β : Type} [DecidableEq β] :
    ∀ (adj : Adj β) (s d s' : β), s' ≠ s →
      adjGet (adjInsert adj s d) s' = adjGet adj s'
  | [], s, d, s', hne => by
    show adjGet [(s, [d])] s' = adjGet [] s'
    rw [adjGet_cons, if_neg (fun h => hne h.symm)]
  | (k, ds) :: rest, s, d, s', hne => by
    rw [adjInsert]
    by_cases hk : k = s
    · rw [if_pos hk, adjGet_cons, adjGet_cons]
      subst hk
      rw [if_neg (fun h => hne h.symm), if_neg (fun h => hne h.symm)]
    · rw [if_neg hk, adjGet_cons, adjGet_cons]
      by_cases hk' : k = s'
      · rw [if_pos hk', if_pos hk']
      · rw [if_neg hk', if_neg hk']
        exact adjGet_adjInsert_other rest s d s' hne

theorem adjInsert_keys {β : Type} [DecidableEq β] :
    ∀ (adj : Adj β) (s d : β),
      (adjInsert adj s d).map Prod.fst =
        if s ∈ adj.map Prod.fst then adj.map Prod.fst
        else adj.map Prod.fst ++ [s]
  | [], s, d => by simp [adjInsert]
  | (k, ds) :: rest, s, d => by
    rw [adjInsert]
    by_cases hk : k = s
    · subst hk
      rw [if_pos rfl]
      simp
    · rw [if_neg hk]
      simp only [List.map_cons, adjInsert_keys rest s d, List.mem_cons]
      by_cases hs : s ∈ rest.map Prod.fst
      · rw [if_pos hs, if_pos (Or.inr hs)]
      · rw [if_neg hs, if_neg (by
          intro h
          rcases h with h | h
          · exact hk h.symm
          · exact hs h)]
        simp

theorem groupedGet_cons (k : GroupKey) (adj : Adj ByteStr)
    (rest : GroupedAdjacency) (key : GroupKey) :
    groupedGet ((k, adj) :: rest) key =
      if k = key then adj else groupedGet rest key := rfl

theorem degGet_cons (k : GroupKey) (n : Nat) (rest : OutDegreeByGroup)
    (key : GroupKey) :
    degGet ((k, n) :: rest) key = if k = key then n else degGet rest key := rfl

theorem groupedGet_groupedInsert_self :
    ∀ (st : GroupedAdjacency) (key : GroupKey) (s d : ByteStr),
      groupedGet (groupedInsert st key s d) key =
        adjInsert (groupedGet st key) s d
  | [], key, s, d => by
    show groupedGet [(key, adjInsert [] s d)] key = adjInsert (groupedGet [] key) s d
    rw [groupedGet_cons, if_pos rfl]
    rfl
  | (k, adj) :: rest, key, s, d => by
    rw [groupedInsert]
    by_cases hk : k = key
    · rw [if_pos hk, groupedGet, if_pos hk, groupedGet, if_pos hk]
    · rw [if_neg hk, groupedGet, if_neg hk, groupedGet, if_neg hk]
      exact groupedGet_groupedInsert_self rest key s d

theorem groupedGet_groupedInsert_other :
    ∀ (st : GroupedAdjacency) (key : GroupKey) (s d : ByteStr)
      (g : GroupKey), g ≠ key →
      groupedGet (groupedInsert st key s d) g = groupedGet st g
  | [], key, s, d, g, hne => by
    show groupedGet [(key, adjInsert [] s d)] g = groupedGet [] g
    rw [groupedGet_cons, if_neg (fun h => hne h.symm)]
  | (k, adj) :: rest, key, s, d, g, hne => by
    rw [groupedInsert]
    by_cases hk : k = key
    · rw [if_pos hk, groupedGet_cons, groupedGet_cons]
      subst hk
      rw [if_neg (fun h => hne h.symm), if_neg (fun h => hne h.symm)]
    · rw [if_neg hk, groupedGet_cons, groupedGet_cons]
      by_cases hk' : k = g
      · rw [if_pos hk', if_pos hk']
      · rw [if_neg hk', if_neg hk']
        exact groupedGet_groupedInsert_other rest key s d g hne

theorem groupedInsert_keys :
    ∀ (st : GroupedAdjacency) (key : GroupKey) (s d : ByteStr),
      (groupedInsert st key s d).map Prod.fst =
        if key ∈ st.map Prod.fst then st.map Prod.fst
        else st.map Prod.fst ++ [key]
  | [], key, s, d => by simp [groupedInsert]
  | (k, adj) :: rest, key, s, d => by
    rw [groupedInsert]
    by_cases hk : k = key
    · subst hk
      rw [if_pos rfl]
      simp
    · rw [if_neg hk]
      simp only [List.map_cons, groupedInsert_keys rest key s d, List.mem_cons]
      by_cases hs : key ∈ rest.map Prod.fst
      · rw [if_pos hs, if_pos (Or.inr hs)]
      · rw [if_neg hs, if_neg (by
          intro h
          rcases h with h | h
          · exact hk h.symm
          · exact hs h)]
        simp

theorem degGet_degSet_self :
    ∀ (m : OutDegreeByGroup) (key : GroupKey) (v : Nat),
      degGet (degSet m key v) key = v
  | [], key, v => by
    show degGet [(key, v)] key = v
    rw [degGet_cons, if_pos rfl]
  | (k, n) :: rest, key, v => by
    rw [degSet]
    by_cases hk : k = key
    · rw [if_pos hk, degGet_cons, if_pos hk]
    · rw [if_neg hk, degGet_cons, if_neg hk]
      exact degGet_degSet_self rest key v

theorem degGet_degSet_other :
    ∀ (m : OutDegreeByGroup) (key : GroupKey) (v : Nat) (g : GroupKey),
      g ≠ key → degGet (degSet m key v) g = degGet m g
  | [], key, v, g, hne => by
    show degGet [(key, v)] g = degGet [] g
    rw [degGet_cons, if_neg (fun h => hne h.symm)]
  | (k, n) :: rest, key, v, g, hne => by
    rw [degSet]
    by_cases hk : k = key
    · rw [if_pos hk, degGet_cons, degGet_cons]
      subst hk
      rw [if_neg (fun h => hne h.symm), if_neg (fun h => hne h.symm)]
    · rw [if_neg hk, degGet_cons, degGet_cons]
      by_cases hk' : k = g
      · rw [if_pos hk', if_pos hk']
      · rw [if_neg hk', if_neg hk']
        exact degGet_degSet_other rest key v g hne

/-- The maximum destination-set size over the sources of one adjacency map:
the value tracked per group by `max_out_degree`. -/
def maxDeg {β : Type} (adj : Adj β) : Nat :=
  (adj.map (fun p => (p.2 : List β).length)).foldr max 0

theorem maxDeg_nil {β : Type} : maxDeg ([] : Adj β) = 0 := rfl

theorem maxDeg_cons {β : Type} (k : β) (ds : List β) (rest : Adj β) :
    maxDeg ((k, ds) :: rest) = max ds.length (maxDeg rest) := rfl

theorem maxDeg_ge {β : Type} :
    ∀ (adj : Adj β) (p : β × List β), p ∈ adj → p.2.length ≤ maxDeg adj
  | [], _, h => absurd h (List.not_mem_nil _)
  | (k, ds) :: rest, p, h => by
    rw [maxDeg_cons]
    rcases List.mem_cons.1 h with rfl | h'
    · exact le_max_left _ _
    · exact le_trans (maxDeg_ge rest p h') (le_max_right _ _)

theorem maxDeg_cases {β : Type} :
    ∀ (adj : Adj β), maxDeg adj = 0 ∨ ∃ p ∈ adj, p.2.length = maxDeg adj
  | [] => Or.inl rfl
  | (k, ds) :: rest => by
    rw [maxDeg_cons]
    rcases maxDeg_cases rest with h0 | ⟨p, hp, hlen⟩
    · rw [h0]
      by_cases hd : ds.length = 0
      · left; omega
      · right
        exact ⟨(k, ds), List.mem_cons_self _ _, by simp⟩
    · by_cases hcmp : maxDeg rest ≤ ds.length
      · right
        exact ⟨(k, ds), List.mem_cons_self _ _, (Nat.max_eq_left hcmp).symm⟩
      · right
        refine ⟨p, List.mem_cons_of_mem _ hp, ?_⟩
        rw [hlen]
        omega

theorem setInsert_ne_nil {β : Type} [DecidableEq β] (l : List β) (d : β) :
    setInsert l d ≠ [] := by
  rw [setInsert]
  by_cases h : d ∈ l
  · rw [if_pos h]
    intro hnil
    rw [hnil] at h
    exact List.not_mem_nil d h
  · rw [if_neg h]
    simp

theorem adjInsert_of_mem {β : Type} [DecidableEq β] :
    ∀ (adj : Adj β) (s d : β), d ∈ adjGet adj s → adjInsert adj s d = adj
  | [], s, d, h => by simp [adjGet] at h
  | (k, ds) :: rest, s, d, h => by
    rw [adjGet_cons] at h
    rw [adjInsert]
    by_cases hk : k = s
    · rw [if_pos hk]
      rw [if_pos hk] at h
      rw [setInsert_of_mem h]
    · rw [if_neg hk]
      rw [if_neg hk] at h
      rw [adjInsert_of_mem rest s d h]

theorem maxDeg_adjInsert {β : Type} [DecidableEq β] :
    ∀ (adj : Adj β) (s d : β), d ∉ adjGet adj s →
      maxDeg (adjInsert adj s d) =
        max (maxDeg adj) ((adjGet adj s).length + 1)
  | [], s, d, _ => by
    show maxDeg [(s, [d])] = max (maxDeg []) ((adjGet [] s).length + 1)
    rw [maxDeg_cons, maxDeg_nil]
    rfl
  | (k, ds) :: rest, s, d, h => by
    rw [adjGet_cons] at h
    rw [adjInsert]
    by_cases hk : k = s
    · rw [if_pos hk]
      rw [if_pos hk] at h
      rw [maxDeg_cons, maxDeg_cons, adjGet_cons, if_pos hk,
        setInsert_length_of_not_mem h]
      omega
    · rw [if_neg hk]
      rw [if_neg hk] at h
      rw [maxDeg_cons, maxDeg_cons, adjGet_cons, if_neg hk,
        maxDeg_adjInsert rest s d h]
      omega

theorem mem_eq_adjGet {β : Type} [DecidableEq β] :
    ∀ (adj : Adj β) (k : β) (ds : List β),
      ((adj.map Prod.fst).Nodup) → (k, ds) ∈ adj → adjGet adj k = ds
  | [], _, _, _, h => absurd h (List.not_mem_nil _)
  | (k', ds') :: rest, k, ds, hnodup, h => by
    rcases List.mem_cons.1 h with heq | h'
    · cases heq
      rw [adjGet_cons, if_pos rfl]
    · have hk : k' ≠ k := by
        intro heq
        subst heq
        have : k' ∈ rest.map Prod.fst :=
          List.mem_map.2 ⟨(k', ds), h', rfl⟩
        exact (List.nodup_cons.1 (by simpa using hnodup)).1 this
      rw [adjGet_cons, if_neg hk]
      exact mem_eq_adjGet rest k ds (List.nodup_cons.1 (by simpa using hnodup)).2 h'

theorem buildStep_eq (st : GroupedAdjacency × OutDegreeByGroup)
    (s d c t : ByteStr) :
    buildStep st (s, d, c, t) =
      if (adjGet (groupedGet st.1 (c, t)) s).length <
          (adjGet (groupedGet (groupedInsert st.1 (c, t) s d) (c, t)) s).length ∧
          degGet st.2 (c, t) <
          (adjGet (groupedGet (groupedInsert st.1 (c, t) s d) (c, t)) s).length
      then (groupedInsert st.1 (c, t) s d,
        degSet st.2 (c, t)
          (adjGet (groupedGet (groupedInsert st.1 (c, t) s d) (c, t)) s).length)
      else (groupedInsert st.1 (c, t) s d, st.2) := rfl

theorem buildStep_fst (st : GroupedAdjacency × OutDegreeByGroup)
    (r : BucketRecord) :
    (buildStep st r).1 = groupedInsert st.1 (r.2.2.1, r.2.2.2) r.1 r.2.1 := by
  obtain ⟨s, d, c, t⟩ := r
  rw [buildStep_eq]
  split_ifs <;> rfl

/-- The effect of one build step on the edge relation. -/
theorem hasEdge_buildStep (st : GroupedAdjacency × OutDegreeByGroup)
    (r : BucketRecord) (g : GroupKey) (s d : ByteStr) :
    hasEdge (buildStep st r).1 g s d ↔
      hasEdge st.1 g s d ∨ r = (s, d, g.1, g.2) := by
  obtain ⟨rs, rd, rc, rt⟩ := r
  rw [buildStep_fst]
  unfold hasEdge
  by_cases hg : g = (rc, rt)
  · subst hg
    dsimp only
    rw [groupedGet_groupedInsert_self]
    by_cases hs : s = rs
    · subst hs
      rw [adjGet_adjInsert_self, mem_setInsert]
      constructor
      · rintro (h | rfl)
        · exact Or.inl h
        · exact Or.inr rfl
      · rintro (h | h)
        · exact Or.inl h
        · right
          injection h with h1 h2
          injection h2 with h2 h3
          exact h2.symm
    · rw [adjGet_adjInsert_other _ _ _ _ hs]
      constructor
      · exact Or.inl
      · rintro (h | h)
        · exact h
        · injection h with h1 h2
          exact absurd h1.symm hs
  · rw [groupedGet_groupedInsert_other _ _ _ _ _ hg]
    constructor
    · exact Or.inl
    · rintro (h | h)
      · exact h
      · exfalso
        apply hg
        injection h with h1 h2
        injection h2 with h2 h3
        injection h3 with h3 h4
        exact Prod.ext h3.symm h4.symm

theorem groupedInsert_of_mem :
    ∀ (st : GroupedAdjacency) (key : GroupKey) (s d : ByteStr),
      d ∈ adjGet (groupedGet st key) s → groupedInsert st key s d = st
  | [], key, s, d, h => by
    exfalso
    have hnil : adjGet (groupedGet ([] : GroupedAdjacency) key) s = [] := rfl
    rw [hnil] at h
    exact List.not_mem_nil d h
  | (k, adj) :: rest, key, s, d, h => by
    rw [groupedGet_cons] at h
    rw [groupedInsert]
    by_cases hk : k = key
    · rw [if_pos hk]
      rw [if_pos hk] at h
      rw [adjInsert_of_mem adj s d h]
    · rw [if_neg hk]
      rw [if_neg hk] at h
      rw [groupedInsert_of_mem rest key s d h]

/-- The invariants maintained by `build_grouped_adjacency`: per group the
source keys are distinct, destination sets are duplicate-free, present
sources have nonempty destination sets, and the tracked out-degree is the
maximum destination-set size. -/
def BuildInv (st : GroupedAdjacency × OutDegreeByGroup) : Prop :=
  (∀ g, ((groupedGet st.1 g).map Prod.fst).Nodup) ∧
  (∀ g s, (adjGet (groupedGet st.1 g) s).Nodup) ∧
  (∀ g s, s ∈ (groupedGet st.1 g).map Prod.fst ↔
    adjGet (groupedGet st.1 g) s ≠ []) ∧
  (∀ g, degGet st.2 g = maxDeg (groupedGet st.1 g))

theorem buildInv_step (st : GroupedAdjacency × OutDegreeByGroup)
    (r : BucketRecord) (h : BuildInv st) : BuildInv (buildStep st r) := by
  obtain ⟨rs, rd, rc, rt⟩ := r
  obtain ⟨h1, h2, h3, h4⟩ := h
  by_cases hnew : rd ∈ adjGet (groupedGet st.1 (rc, rt)) rs
  · have hins : groupedInsert st.1 (rc, rt) rs rd = st.1 :=
      groupedInsert_of_mem st.1 (rc, rt) rs rd hnew
    have hstep : buildStep st (rs, rd, rc, rt) = (st.1, st.2) := by
      rw [buildStep_eq, hins]
      rw [if_neg]
      rintro ⟨hlt, _⟩
      exact absurd hlt (lt_irrefl _)
    rw [hstep]
    exact ⟨h1, h2, h3, h4⟩
  · have hGself : groupedGet (groupedInsert st.1 (rc, rt) rs rd) (rc, rt) =
        adjInsert (groupedGet st.1 (rc, rt)) rs rd :=
      groupedGet_groupedInsert_self st.1 (rc, rt) rs rd
    have hnewsize :
        (adjGet (groupedGet (groupedInsert st.1 (rc, rt) rs rd) (rc, rt)) rs).length =
        (adjGet (groupedGet st.1 (rc, rt)) rs).length + 1 := by
      rw [hGself, adjGet_adjInsert_self, setInsert_length_of_not_mem hnew]
    have hmax : maxDeg (groupedGet (groupedInsert st.1 (rc, rt) rs rd) (rc, rt)) =
        max (maxDeg (groupedGet st.1 (rc, rt)))
          ((adjGet (groupedGet st.1 (rc, rt)) rs).length + 1) := by
      rw [hGself, maxDeg_adjInsert _ _ _ hnew]
    -- common facts about the adjacency component
    have hA1 : ∀ g, ((groupedGet (groupedInsert st.1 (rc, rt) rs rd) g).map
        Prod.fst).Nodup := by
      intro g
      by_cases hg : g = (rc, rt)
      · subst hg
        rw [hGself, adjInsert_keys]
        by_cases hmem : rs ∈ (groupedGet st.1 (rc, rt)).map Prod.fst
        · rw [if_pos hmem]; exact h1 (rc, rt)
        · rw [if_neg hmem]
          rw [List.nodup_append]
          exact ⟨h1 (rc, rt), List.nodup_singleton rs, fun x hx hmem' => by
            rw [List.mem_singleton] at hmem'
            exact hmem (hmem' ▸ hx)⟩
      · rw [groupedGet_groupedInsert_other _ _ _ _ _ hg]
        exact h1 g
    have hA2 : ∀ g s, (adjGet (groupedGet (groupedInsert st.1 (rc, rt) rs rd) g)
        s).Nodup := by
      intro g s
      by_cases hg : g = (rc, rt)
      · subst hg
        rw [hGself]
        by_cases hs : s = rs
        · subst hs
          rw [adjGet_adjInsert_self]
          exact setInsert_nodup _ _ (h2 (rc, rt) s)
        · rw [adjGet_adjInsert_other _ _ _ _ hs]
          exact h2 (rc, rt) s
      · rw [groupedGet_groupedInsert_other _ _ _ _ _ hg]
        exact h2 g s
    have hA3 : ∀ g s, s ∈ (groupedGet (groupedInsert st.1 (rc, rt) rs rd) g).map
        Prod.fst ↔ adjGet (groupedGet (groupedInsert st.1 (rc, rt) rs rd) g) s ≠
        [] := by
      intro g s
      by_cases hg : g = (rc, rt)
      · subst hg
        rw [hGself, adjInsert_keys]
        by_cases hs : s = rs
        · subst hs
          rw [adjGet_adjInsert_self]
          constructor
          · intro _; exact setInsert_ne_nil _ _
          · intro _
            by_cases hmem : s ∈ (groupedGet st.1 (rc, rt)).map Prod.fst
            · rw [if_pos hmem]; exact hmem
            · rw [if_neg hmem]
              exact List.mem_append.2 (Or.inr (List.mem_singleton_self s))
        · rw [adjGet_adjInsert_other _ _ _ _ hs]
          by_cases hmem : rs ∈ (groupedGet st.1 (rc, rt)).map Prod.fst
          · rw [if_pos hmem]
            exact h3 (rc, rt) s
          · rw [if_neg hmem]
            constructor
            · intro hin
              rcases List.mem_append.1 hin with hin | hin
              · exact (h3 (rc, rt) s).1 hin
              · rw [List.mem_singleton] at hin
                exact absurd hin hs
            · intro hne
              exact List.mem_append.2 (Or.inl ((h3 (rc, rt) s).2 hne))
      · rw [groupedGet_groupedInsert_other _ _ _ _ _ hg]
        exact h3 g s
    by_cases hdeg : degGet st.2 (rc, rt) <
        (adjGet (groupedGet st.1 (rc, rt)) rs).length + 1
    · have hstep : buildStep st (rs, rd, rc, rt) =
          (groupedInsert st.1 (rc, rt) rs rd,
           degSet st.2 (rc, rt)
             ((adjGet (groupedGet st.1 (rc, rt)) rs).length + 1)) := by
        rw [buildStep_eq]
        rw [if_pos ⟨by rw [hnewsize]; omega, by rw [hnewsize]; exact hdeg⟩]
        rw [hnewsize]
      rw [hstep]
      refine ⟨hA1, hA2, hA3, ?_⟩
      intro g
      dsimp only
      by_cases hg : g = (rc, rt)
      · subst hg
        rw [degGet_degSet_self, hmax]
        have := h4 (rc, rt)
        omega
      · rw [degGet_degSet_other _ _ _ _ hg,
          groupedGet_groupedInsert_other _ _ _ _ _ hg]
        exact h4 g
    · have hstep : buildStep st (rs, rd, rc, rt) =
          (groupedInsert st.1 (rc, rt) rs rd, st.2) := by
        rw [buildStep_eq]
        rw [if_neg]
        rintro ⟨_, hlt⟩
        rw [hnewsize] at hlt
        exact hdeg hlt
      rw [hstep]
      refine ⟨hA1, hA2, hA3, ?_⟩
      intro g
      dsimp only
      by_cases hg : g = (rc, rt)
      · subst hg
        rw [hmax]
        have := h4 (rc, rt)
        omega
      · rw [groupedGet_groupedInsert_other _ _ _ _ _ hg]
        exact h4 g

theorem buildInv_build (records : List BucketRecord) :
    BuildInv (build_grouped_adjacency records) := by
  unfold build_grouped_adjacency
  refine foldl_invariant BuildInv buildStep records ([], []) ?_ ?_
  · refine ⟨fun g => List.nodup_nil, fun g s => List.nodup_nil, ?_, fun g => rfl⟩
    intro g s
    show s ∈ ([] : List ByteStr) ↔ ([] : List ByteStr) ≠ []
    simp
  · intro a x _ ha
    exact buildInv_step a x ha

/-- The edge relation of the built structure is record membership. -/
theorem hasEdge_build :
    ∀ (records : List BucketRecord) (st : GroupedAdjacency × OutDegreeByGroup)
      (g : GroupKey) (s d : ByteStr),
      hasEdge (records.foldl buildStep st).1 g s d ↔
        hasEdge st.1 g s d ∨ (s, d, g.1, g.2) ∈ records
  | [], st, g, s, d => by simp
  | r :: rest, st, g, s, d => by
    rw [List.foldl_cons, hasEdge_build rest (buildStep st r) g s d,
      hasEdge_buildStep]
    rw [List.mem_cons]
    constructor
    · rintro ((h | h) | h)
      · exact Or.inl h
      · exact Or.inr (Or.inl h.symm)
      · exact Or.inr (Or.inr h)
    · rintro (h | (h | h))
      · exact Or.inl (Or.inl h)
      · exact Or.inl (Or.inr h.symm)
      · exact Or.inr h

theorem hasEdge_build_iff (records : List BucketRecord) (g : GroupKey)
    (s d : ByteStr) :
    hasEdge (build_grouped_adjacency records).1 g s d ↔
      (s, d, g.1, g.2) ∈ records := by
  unfold build_grouped_adjacency
  rw [hasEdge_build]
  have : ¬ hasEdge (([], []) : GroupedAdjacency × OutDegreeByGroup).1 g s d := by
    intro h
    exact List.not_mem_nil d h
  constructor
  · rintro (h | h)
    · exact absurd h this
    · exact h
  · exact Or.inr

/-- Two adjacency maps with duplicate-free keys and destination sets and the
same edge relation have the same maximum out-degree. -/
theorem maxDeg_congr (A1 A2 : Adj ByteStr)
    (hn1 : (A1.map Prod.fst).Nodup) (hn2 : (A2.map Prod.fst).Nodup)
    (hd1 : ∀ s, (adjGet A1 s).Nodup) (hd2 : ∀ s, (adjGet A2 s).Nodup)
    (hmem : ∀ s d, d ∈ adjGet A1 s ↔ d ∈ adjGet A2 s) :
    maxDeg A1 = maxDeg A2 := by
  have key : ∀ (B1 B2 : Adj ByteStr), (B1.map Prod.fst).Nodup →
      (∀ s, (adjGet B1 s).Nodup) → (∀ s, (adjGet B2 s).Nodup) →
      (∀ s d, d ∈ adjGet B1 s ↔ d ∈ adjGet B2 s) →
      maxDeg B1 ≤ maxDeg B2 := by
    intro B1 B2 hn1' hd1' hd2' hmem'
    rcases maxDeg_cases B1 with h0 | ⟨⟨s, ds⟩, hp, hlen⟩
    · omega
    · have hget : adjGet B1 s = ds := mem_eq_adjGet B1 s ds hn1' hp
      have hperm : (adjGet B1 s).Perm (adjGet B2 s) :=
        (List.subperm_of_subset (hd1' s) (fun d hd => (hmem' s d).1 hd)).antisymm
          (List.subperm_of_subset (hd2' s) (fun d hd => (hmem' s d).2 hd))
      have hleneq : ds.length = (adjGet B2 s).length := by
        rw [← hget]
        exact hperm.length_eq
      by_cases hzero : ds.length = 0
      · dsimp only at hlen
        omega
      · have hne : adjGet B2 s ≠ [] := by
          intro hnil
          rw [hnil] at hleneq
          simp only [List.length_nil] at hleneq
          omega
        have hmem2 : (s, adjGet B2 s) ∈ B2 := adjGet_mem B2 s hne
        have := maxDeg_ge B2 (s, adjGet B2 s) hmem2
        dsimp only at this hlen
        omega
  exact le_antisymm
    (key A1 A2 hn1 hd1 hd2 hmem)
    (key A2 A1 hn2 hd2 hd1 (fun s d => (hmem s d).symm))

/-- A cycle of a graph is a cycle of every graph with at least its edges. -/
theorem isCycle_mono {β : Type} [DecidableEq β] {A1 A2 : Adj β}
    (he : ∀ a b, EdgeStep A1 a b → EdgeStep A2 a b) {c : List β}
    (hc : IsCycle A1 c) : IsCycle A2 c := by
  obtain ⟨hlen, hnd, hch, hcl⟩ := hc
  exact ⟨hlen, hnd, hch.imp (fun a b h => he a b h),
    fun a ha b hb => he a b (hcl a ha b hb)⟩

/-- Two values that are each the longest-cycle length (or 0) of graphs with
the same edge relation are equal. -/
theorem longest_val_eq {β : Type} [DecidableEq β] {A1 A2 : Adj β}
    (he : ∀ a b, EdgeStep A1 a b ↔ EdgeStep A2 a b) {n1 n2 : Nat}
    (s1 : (∀ c, IsCycle A1 c → c.length ≤ n1) ∧
      (n1 = 0 ∨ ∃ c, IsCycle A1 c ∧ c.length = n1))
    (s2 : (∀ c, IsCycle A2 c → c.length ≤ n2) ∧
      (n2 = 0 ∨ ∃ c, IsCycle A2 c ∧ c.length = n2)) : n1 = n2 := by
  apply le_antisymm
  · rcases s1.2 with h0 | ⟨c, hc, hlen⟩
    · omega
    · rw [← hlen]
      exact s2.1 c (isCycle_mono (fun a b h => (he a b).1 h) hc)
  · rcases s2.2 with h0 | ⟨c, hc, hlen⟩
    · omega
    · rw [← hlen]
      exact s1.1 c (isCycle_mono (fun a b h => (he a b).2 h) hc)

/-- An adjacency map whose present sources have nonempty destination sets and
which carries no edge at all is the empty map. -/
theorem adj_eq_nil_of_no_edges (A : Adj ByteStr)
    (h3 : ∀ s, s ∈ A.map Prod.fst ↔ adjGet A s ≠ [])
    (h : ∀ s d, d ∉ adjGet A s) : A = [] := by
  have hkeys : A.map Prod.fst = [] := by
    rw [List.eq_nil_iff_forall_not_mem]
    intro s hs
    have hne := (h3 s).1 hs
    obtain ⟨d, hd⟩ := List.exists_mem_of_ne_nil _ hne
    exact h s d hd
  exact List.map_eq_nil_iff.1 hkeys

/-- Every group of the built adjacency structure is well formed. -/
theorem build_group_wf (records : List BucketRecord) (g : GroupKey) :
    AdjWF (groupedGet (build_grouped_adjacency records).1 g) := by
  obtain ⟨h1, h2, h3, h4⟩ := buildInv_build records
  refine ⟨h1 g, ?_⟩
  intro p hp
  obtain ⟨k, ds⟩ := p
  show ds.Nodup
  rw [← mem_eq_adjGet _ k ds (h1 g) hp]
  exact h2 g k

/-- A maximum out-degree of at most 1 means the graph is functional. -/
theorem functional_of_maxDeg_le_one (A : Adj ByteStr) (h : maxDeg A ≤ 1) :
    Functional A :=
  fun p hp => le_trans (maxDeg_ge A p hp) h

/-- `find_longest_cycle` depends only on the edge relation of a well-formed
graph (given matching emptiness, and functionality when the flag is set). -/
theorem find_longest_cycle_congr (A1 A2 : Adj ByteStr)
    (hwf1 : AdjWF A1) (hwf2 : AdjWF A2)
    (he : ∀ a b, EdgeStep A1 a b ↔ EdgeStep A2 a b)
    (hnil : A1 = [] ↔ A2 = []) (b : Bool)
    (hb : b = true → Functional A1 ∧ Functional A2) :
    find_longest_cycle A1 b = find_longest_cycle A2 b := by
  unfold find_longest_cycle
  by_cases h1 : A1 = []
  · rw [if_pos (List.isEmpty_iff.2 h1), if_pos (List.isEmpty_iff.2 (hnil.1 h1))]
  · rw [if_neg (fun h => h1 (List.isEmpty_iff.1 h)),
      if_neg (fun h => h1 (hnil.2 (List.isEmpty_iff.1 h)))]
    cases b with
    | false =>
      rw [if_neg Bool.false_ne_true, if_neg Bool.false_ne_true]
      exact longest_val_eq he (find_cycle_dfs_spec A1 hwf1)
        (find_cycle_dfs_spec A2 hwf2)
    | true =>
      rw [if_pos rfl, if_pos rfl]
      obtain ⟨hf1, hf2⟩ := hb rfl
      exact longest_val_eq he (find_cycle_functional_spec A1 hwf1 hf1)
        (find_cycle_functional_spec A2 hwf2 hf2)

/-- Membership in a list is unchanged by inserting a duplicate of an element
the list already holds. -/
theorem mem_insert_dup {α : Type} {l1 l2 : List α} {r x : α}
    (hr : r ∈ l1 ++ l2) : x ∈ l1 ++ r :: l2 ↔ x ∈ l1 ++ l2 := by
  simp only [List.mem_append, List.mem_cons] at hr ⊢
  constructor
  · rintro (h | rfl | h)
    · exact Or.inl h
    · exact hr
    · exact Or.inr h
  · rintro (h | h)
    · exact Or.inl h
    · exact Or.inr (Or.inr h)

/-! ## Equivalence of the monolithic and modular processors (C10) -/

theorem monoDfsAux_eq {β : Type} [DecidableEq β] (adj : Adj β)
    (idxf : β → Option Nat) (start : β) (startIdx : Nat) :
    ∀ (fuel : Nat) (node : β) (path : List β) (depth longest : Nat),
      Monolithic.dfsAux adj idxf start startIdx fuel node path depth longest =
        dfsAux adj idxf start startIdx fuel node path depth longest := by
  intro fuel
  induction fuel with
  | zero => intro node path depth longest; rfl
  | succ f ih =>
    intro node path depth longest
    show (adjGet adj node).foldl _ longest = (adjGet adj node).foldl _ longest
    apply List.foldl_ext
    intro a b hb
    dsimp only
    by_cases h1 : b = start ∧ 1 ≤ depth
    · simp only [if_pos h1]
    · simp only [if_neg h1]
      by_cases h2 : b ∈ path
      · simp only [if_pos h2]
      · simp only [if_neg h2]
        cases hidx : idxf b with
        | none => rfl
        | some j =>
          dsimp only
          by_cases h3 : startIdx ≤ j
          · simp only [if_pos h3]
            exact ih b (b :: path) (depth + 1) a
          · simp only [if_neg h3]

theorem monoDfsStarts_eq {β : Type} [DecidableEq β] (adj : Adj β)
    (idxf : β → Option Nat) (fuel : Nat) :
    ∀ (starts : List β) (i longest : Nat),
      Monolithic.dfsStarts adj idxf fuel starts i longest =
        dfsStarts adj idxf fuel starts i longest
  | [], _, _ => rfl
  | s :: rest, i, longest => by
    show Monolithic.dfsStarts adj idxf fuel rest (i + 1)
        (Monolithic.dfsAux adj idxf s i fuel s [s] 0 longest) =
      dfsStarts adj idxf fuel rest (i + 1)
        (dfsAux adj idxf s i fuel s [s] 0 longest)
    rw [monoDfsAux_eq]
    exact monoDfsStarts_eq adj idxf fuel rest (i + 1) _

theorem mono_find_cycle_dfs_eq {β : Type} [DecidableEq β] [LinearOrder β]
    (adj : Adj β) : Monolithic.find_cycle_dfs adj = find_cycle_dfs adj := by
  simp only [Monolithic.find_cycle_dfs, find_cycle_dfs]
  by_cases h : (adj.map Prod.fst).isEmpty
  · rw [if_pos h, if_pos h]
  · rw [if_neg h, if_neg h]
    exact monoDfsStarts_eq adj _ _ _ 0 0

theorem monoWalkAux_some {β : Type} [DecidableEq β] (nx : List (β × β))
    (gvis : List β) (fuel : Nat) (cur : β) (po : List (β × Nat)) (pos : Nat) :
    Monolithic.walkAux nx gvis (fuel + 1) (some cur) po pos =
      if cur ∈ gvis then (0, po.map Prod.fst)
      else
        match poLookup po cur with
        | some p => (pos - p, po.map Prod.fst)
        | none =>
          Monolithic.walkAux nx gvis fuel (nextGet nx cur) ((cur, pos) :: po)
            (pos + 1) :=
  rfl

theorem monoWalkAux_eq {β : Type} [DecidableEq β] (nx : List (β × β))
    (gvis : List β) :
    ∀ (fuel : Nat) (cur : Option β) (po : List (β × Nat)) (pos : Nat),
      Monolithic.walkAux nx gvis fuel cur po pos =
        walkAux nx gvis fuel cur po pos := by
  intro fuel
  induction fuel with
  | zero => intro cur po pos; rfl
  | succ f ih =>
    intro cur po pos
    cases cur with
    | none => rfl
    | some c =>
      rw [monoWalkAux_some, walkAux_some]
      by_cases hg : c ∈ gvis
      · rw [if_pos hg, if_pos hg]
      · rw [if_neg hg, if_neg hg]
        cases hp : poLookup po c with
        | some p => rfl
        | none =>
          dsimp only
          exact ih (nextGet nx c) ((c, pos) :: po) (pos + 1)

theorem monoFuncLoop_eq {β : Type} [DecidableEq β] (nx : List (β × β))
    (fuel : Nat) :
    ∀ (starts gvis : List β) (longest : Nat),
      Monolithic.funcLoop nx fuel starts gvis longest =
        funcLoop nx fuel starts gvis longest
  | [], _, _ => rfl
  | s :: rest, gvis, longest => by
    rw [Monolithic.funcLoop, funcLoop]
    by_cases hg : s ∈ gvis
    · rw [if_pos hg, if_pos hg]
      exact monoFuncLoop_eq nx fuel rest gvis longest
    · rw [if_neg hg, if_neg hg]
      rw [monoWalkAux_eq]
      exact monoFuncLoop_eq nx fuel rest _ _

theorem mono_find_cycle_functional_eq {β : Type} [DecidableEq β]
    (adj : Adj β) :
    Monolithic.find_cycle_functional adj = find_cycle_functional adj := by
  simp only [Monolithic.find_cycle_functional, find_cycle_functional]
  by_cases h : (buildNext adj).isEmpty
  · rw [if_pos h, if_pos h]
  · rw [if_neg h, if_neg h]
    exact monoFuncLoop_eq _ _ _ [] 0

theorem mono_find_longest_cycle_eq {β : Type} [DecidableEq β] [LinearOrder β]
    (adj : Adj β) (is_functional : Bool) :
    Monolithic.find_longest_cycle adj is_functional =
      find_longest_cycle adj is_functional := by
  rw [Monolithic.find_longest_cycle, find_longest_cycle]
  by_cases h : adj.isEmpty
  · rw [if_pos h, if_pos h]
  · rw [if_neg h, if_neg h]
    cases is_functional
    · rw [if_neg Bool.false_ne_true, if_neg Bool.false_ne_true]
      exact mono_find_cycle_dfs_eq adj
    · rw [if_pos rfl, if_pos rfl]
      exact mono_find_cycle_functional_eq adj

/-- Folding over a `filterMap` is folding with the skip on `none`. -/
theorem foldl_filterMap_eq {α β γ : Type} (f : α → Option β) (g : γ → β → γ) :
    ∀ (l : List α) (init : γ),
      (l.filterMap f).foldl g init =
        l.foldl
          (fun st a => match f a with | none => st | some b => g st b) init
  | [], _ => rfl
  | a :: l, init => by
    rw [List.foldl_cons]
    cases hf : f a with
    | none =>
      rw [List.filterMap_cons_none hf]
      exact foldl_filterMap_eq f g l init
    | some b =>
      rw [List.filterMap_cons_some hf, List.foldl_cons]
      exact foldl_filterMap_eq f g l (g init b)

/-- The inline parse-and-build fold of the monolithic `process_bucket`
equals the modular parse-then-build pipeline. -/
theorem mono_build_fold_eq (lines : List ByteStr) :
    lines.foldl
      (fun st raw =>
        if (rstripNL raw).isEmpty then st
        else
          if h : (splitLimit 124 3 (rstripNL raw)).length < 4 then st
          else
            buildStep st
              ((splitLimit 124 3 (rstripNL raw)).get ⟨0, by omega⟩,
               (splitLimit 124 3 (rstripNL raw)).get ⟨1, by omega⟩,
               (splitLimit 124 3 (rstripNL raw)).get ⟨2, by omega⟩,
               (splitLimit 124 3 (rstripNL raw)).get ⟨3, by omega⟩))
      (([], []) : GroupedAdjacency × OutDegreeByGroup) =
    build_grouped_adjacency (read_bucket_records lines) := by
  rw [read_bucket_records, build_grouped_adjacency, foldl_filterMap_eq]
  apply List.foldl_ext
  intro st raw hmem
  dsimp only
  rw [parse_bucket_line]
  by_cases hempty : (rstripNL raw).isEmpty
  · rw [if_pos hempty, if_pos hempty]
  · rw [if_neg hempty, if_neg hempty]
    have hle : (splitLimit 124 3 (rstripNL raw)).length ≤ 4 :=
      splitLimit_length_le 124 3 (rstripNL raw)
    rcases hps : splitLimit 124 3 (rstripNL raw) with
      _ | ⟨a, _ | ⟨b, _ | ⟨c, _ | ⟨d, _ | ⟨e, rest⟩⟩⟩⟩⟩
    · rfl
    · rfl
    · rfl
    · rfl
    · rfl
    · rw [hps] at hle
      simp only [List.length_cons] at hle
      omega

/-- A fold on projected state follows the fold on the original state when
every step commutes with the projection. -/
theorem foldl_map_rel {gam del eps : Type} (p : del → gam) (f : gam → eps → gam)
    (g : del → eps → del) (hfg : ∀ d e, f (p d) e = p (g d e)) :
    ∀ (l : List eps) (init : del), l.foldl f (p init) = p (l.foldl g init)
  | [], _ => rfl
  | e :: l, init => by
    rw [List.foldl_cons, List.foldl_cons, hfg]
    exact foldl_map_rel p f g hfg l (g init e)

/-- One step of the monolithic selection loop on the projected accumulator
equals the projection of one modular selection step. -/
theorem mono_select_step_eq (B : GroupedAdjacency × OutDegreeByGroup)
    (bestR : Option BucketResult) (kv : GroupKey × Adj ByteStr) :
    (let cycle_len :=
        Monolithic.find_longest_cycle kv.2 (decide (degGet B.2 kv.1 ≤ 1));
      if 0 < cycle_len then
        match Option.map
            (fun r : BucketResult => (r.claim_id, r.status_code, r.cycle_length))
            bestR with
        | none => some (kv.1.1, kv.1.2, cycle_len)
        | some b =>
          if b.2.2 < cycle_len then some (kv.1.1, kv.1.2, cycle_len)
          else some b
      else Option.map
        (fun r : BucketResult => (r.claim_id, r.status_code, r.cycle_length))
        bestR) =
    Option.map
      (fun r : BucketResult => (r.claim_id, r.status_code, r.cycle_length))
      (let cycle_len :=
          find_longest_cycle kv.2 (decide (degGet B.2 kv.1 ≤ 1));
        match bestR with
        | none =>
          if 0 < cycle_len then some ⟨kv.1.1, kv.1.2, cycle_len⟩ else none
        | some b =>
          if 0 < cycle_len ∧ b.cycle_length < cycle_len then
            some ⟨kv.1.1, kv.1.2, cycle_len⟩
          else some b) := by
  rw [mono_find_longest_cycle_eq]
  cases bestR with
  | none =>
    simp only [Option.map_none']
    by_cases h0 : 0 < find_longest_cycle kv.2 (decide (degGet B.2 kv.1 ≤ 1))
    · simp only [if_pos h0, Option.map_some']
    · simp only [if_neg h0, Option.map_none']
  | some b =>
    simp only [Option.map_some']
    by_cases h0 : 0 < find_longest_cycle kv.2 (decide (degGet B.2 kv.1 ≤ 1))
    · by_cases h1 : b.cycle_length <
          find_longest_cycle kv.2 (decide (degGet B.2 kv.1 ≤ 1))
      · simp only [if_pos h0, Option.map_some']
        dsimp only
        rw [if_pos h1, if_pos (And.intro h0 h1)]
        rfl
      · simp only [if_pos h0, Option.map_some']
        dsimp only
        rw [if_neg h1, if_neg (fun hc : _ ∧ _ => h1 hc.2)]
        rfl
    · simp only [if_neg h0, Option.map_some']
      rw [if_neg (fun hc : _ ∧ _ => h0 hc.1)]
      rfl

/-- The per-group selection fold of the monolithic `process_bucket` tracks
the modular one through the tuple projection of `BucketResult`. -/
theorem mono_select_fold_eq (B : GroupedAdjacency × OutDegreeByGroup)
    (groups : GroupedAdjacency) (bestR : Option BucketResult) :
    groups.foldl
      (fun best kv =>
        let cycle_len :=
          Monolithic.find_longest_cycle kv.2 (decide (degGet B.2 kv.1 ≤ 1))
        if 0 < cycle_len then
          match best with
          | none => some (kv.1.1, kv.1.2, cycle_len)
          | some b =>
            if b.2.2 < cycle_len then some (kv.1.1, kv.1.2, cycle_len)
            else some b
        else best)
      (bestR.map (fun r => (r.claim_id, r.status_code, r.cycle_length))) =
    (groups.foldl
      (fun best kv =>
        let cycle_len :=
          find_longest_cycle kv.2 (decide (degGet B.2 kv.1 ≤ 1))
        match best with
        | none =>
          if 0 < cycle_len then some ⟨kv.1.1, kv.1.2, cycle_len⟩ else none
        | some b =>
          if 0 < cycle_len ∧ b.cycle_length < cycle_len then
            some ⟨kv.1.1, kv.1.2, cycle_len⟩
          else some b)
      bestR).map (fun r => (r.claim_id, r.status_code, r.cycle_length)) :=
  foldl_map_rel
    (fun o => o.map (fun r => (r.claim_id, r.status_code, r.cycle_length)))
    _ _ (fun d e => mono_select_step_eq B d e) groups bestR

/-! ## Claim theorems -/

/-- C1: for every group adjacency map (with the well-formedness that Python
dicts and sets guarantee), `find_cycle_dfs` returns the length of the longest
simple cycle, or 0 when no simple cycle of length at least 2 exists: the
start-index restriction loses no cycle, because every simple cycle is
discovered from its minimum-indexed node. -/
theorem claim_C1_dfs_longest_cycle (adj : Adj ByteStr) (hwf : AdjWF adj) :
    (∀ c, IsCycle adj c → c.length ≤ find_cycle_dfs adj) ∧
    (find_cycle_dfs adj = 0 ∨
      ∃ c, IsCycle adj c ∧ c.length = find_cycle_dfs adj) ∧
    ((∀ c, ¬ IsCycle adj c) → find_cycle_dfs adj = 0) := by
  obtain ⟨h1, h2⟩ := find_cycle_dfs_spec adj hwf
  refine ⟨h1, h2, ?_⟩
  intro hnone
  rcases h2 with h0 | ⟨c, hc, _⟩
  · exact h0
  · exact absurd hc (hnone c)

/-- Witness for C1 at the concrete two-node mutual pair `A ↔ B`: the DFS
reports 2, which is the length of the (unique) simple cycle. -/
theorem claim_C1_witness :
    AdjWF [([65], [[66]]), ([66], [[65]])] ∧
    ((∀ c, IsCycle [([65], [[66]]), ([66], [[65]])] c →
        c.length ≤ find_cycle_dfs [([65], [[66]]), ([66], [[65]])]) ∧
     (find_cycle_dfs [([65], [[66]]), ([66], [[65]])] = 0 ∨
       ∃ c, IsCycle [([65], [[66]]), ([66], [[65]])] c ∧
         c.length = find_cycle_dfs [([65], [[66]]), ([66], [[65]])]) ∧
     ((∀ c, ¬ IsCycle [([65], [[66]]), ([66], [[65]])] c) →
       find_cycle_dfs [([65], [[66]]), ([66], [[65]])] = 0)) :=
  ⟨by decide, claim_C1_dfs_longest_cycle _ (by decide)⟩

/-- C2: for every well-formed adjacency map in which every destination set
has size at most 1 (functional classification), `find_cycle_functional`
returns the length of the longest simple cycle, or 0 when none of length at
least 2 exists. -/
theorem claim_C2_functional_longest_cycle (adj : Adj ByteStr)
    (hwf : AdjWF adj) (hfun : Functional adj) :
    (∀ c, IsCycle adj c → c.length ≤ find_cycle_functional adj) ∧
    (find_cycle_functional adj = 0 ∨
      ∃ c, IsCycle adj c ∧ c.length = find_cycle_functional adj) ∧
    ((∀ c, ¬ IsCycle adj c) → find_cycle_functional adj = 0) := by
  obtain ⟨h1, h2⟩ := find_cycle_functional_spec adj hwf hfun
  refine ⟨h1, h2, ?_⟩
  intro hnone
  rcases h2 with h0 | ⟨c, hc, _⟩
  · exact h0
  · exact absurd hc (hnone c)

/-- Witness for C2 at the concrete functional mutual pair `a ↔ b`: the walk
reports 2, the length of the unique simple cycle. -/
theorem claim_C2_witness :
    AdjWF [([97], [[98]]), ([98], [[97]])] ∧
    Functional [([97], [[98]]), ([98], [[97]])] ∧
    ((∀ c, IsCycle [([97], [[98]]), ([98], [[97]])] c →
        c.length ≤ find_cycle_functional [([97], [[98]]), ([98], [[97]])]) ∧
     (find_cycle_functional [([97], [[98]]), ([98], [[97]])] = 0 ∨
       ∃ c, IsCycle [([97], [[98]]), ([98], [[97]])] c ∧
         c.length = find_cycle_functional [([97], [[98]]), ([98], [[97]])]) ∧
     ((∀ c, ¬ IsCycle [([97], [[98]]), ([98], [[97]])] c) →
       find_cycle_functional [([97], [[98]]), ([98], [[97]])] = 0)) :=
  ⟨by decide, by decide,
   claim_C2_functional_longest_cycle _ (by decide) (by decide)⟩

/-- C3: on every well-formed adjacency map where every destination set has
size at most 1 (so both algorithms are applicable), `find_cycle_functional`
and `find_cycle_dfs` return the same cycle length. -/
theorem claim_C3_algorithms_agree (adj : Adj ByteStr) (hwf : AdjWF adj)
    (hfun : Functional adj) :
    find_cycle_functional adj = find_cycle_dfs adj := by
  obtain ⟨hf1, hf2⟩ := find_cycle_functional_spec adj hwf hfun
  obtain ⟨hd1, hd2⟩ := find_cycle_dfs_spec adj hwf
  rcases hf2 with hf0 | ⟨c, hc, hlen⟩
  · rcases hd2 with hd0 | ⟨c, hc, hlen⟩
    · rw [hf0, hd0]
    · have hb := hf1 c hc
      have h2 := hc.1
      omega
  · rcases hd2 with hd0 | ⟨c', hc', hlen'⟩
    · have hb := hd1 c hc
      have h2 := hc.1
      omega
    · have b1 := hd1 c hc
      have b2 := hf1 c' hc'
      omega

/-- Witness for C3 at the concrete functional three-cycle `1 → 2 → 3 → 1`:
both algorithms return the same value. -/
theorem claim_C3_witness :
    find_cycle_functional [([49], [[50]]), ([50], [[51]]), ([51], [[49]])] =
      find_cycle_dfs [([49], [[50]]), ([50], [[51]]), ([51], [[49]])] :=
  claim_C3_algorithms_agree _ (by decide) (by decide)

/-- C4: for every input file, the `PartitionStats` returned by
`partition_to_buckets` satisfy
`lines_read = empty_lines + malformed_lines + lines_written`, and each input
line increments `lines_read` together with exactly one of the three category
counters (empty, malformed, written), so the empty and malformed counters
are disjoint. -/
theorem claim_C4_partition_counters :
    (∀ (lines : List ByteStr) (B : Nat),
      (partition_to_buckets lines B).2.lines_read =
        (partition_to_buckets lines B).2.empty_lines +
        (partition_to_buckets lines B).2.malformed_lines +
        (partition_to_buckets lines B).2.lines_written) ∧
    (∀ (B : Nat) (st : PartState) (raw : ByteStr),
      (partitionStep B st raw).2.lines_read = st.2.lines_read + 1 ∧
      (((partitionStep B st raw).2.empty_lines = st.2.empty_lines + 1 ∧
        (partitionStep B st raw).2.malformed_lines = st.2.malformed_lines ∧
        (partitionStep B st raw).2.lines_written = st.2.lines_written) ∨
       ((partitionStep B st raw).2.empty_lines = st.2.empty_lines ∧
        (partitionStep B st raw).2.malformed_lines = st.2.malformed_lines + 1 ∧
        (partitionStep B st raw).2.lines_written = st.2.lines_written) ∨
       ((partitionStep B st raw).2.empty_lines = st.2.empty_lines ∧
        (partitionStep B st raw).2.malformed_lines = st.2.malformed_lines ∧
        (partitionStep B st raw).2.lines_written = st.2.lines_written + 1))) :=
  ⟨partition_counter_identity, fun B st raw => partitionStep_stats B st raw⟩

/-- C5 (code bug): `solve` validates the bucket count with
`buckets & (buckets - 1) != 0`, which accepts `buckets = 0` even though 0 is
not a power of two, contradicting the claim that every non-power-of-two is
rejected before any work begins. -/
theorem claim_C5_zero_buckets_accepted :
    solveRejectsBuckets 0 = false ∧ ¬ ∃ k : Nat, (0 : Nat) = 2 ^ k := by
  refine ⟨rfl, ?_⟩
  rintro ⟨k, hk⟩
  have h2 : 0 < 2 ^ k := Nat.pos_pow_of_pos k (by omega)
  omega

/-- C6: neither cycle algorithm ever reports a cycle of length 1 (even in
the presence of self-loops): both return 0 or a value at least 2, and every
`BucketResult` produced by `process_bucket` has `cycle_length ≥ 2`. -/
theorem claim_C6_no_length_one_cycles :
    (∀ adj : Adj ByteStr,
      find_cycle_functional adj = 0 ∨ 2 ≤ find_cycle_functional adj) ∧
    (∀ adj : Adj ByteStr,
      find_cycle_dfs adj = 0 ∨ 2 ≤ find_cycle_dfs adj) ∧
    (∀ (lines : List ByteStr) (res : BucketResult),
      process_bucket lines = some res → 2 ≤ res.cycle_length) :=
  ⟨fun adj => find_cycle_functional_result_cases adj,
   fun adj => find_cycle_dfs_result_cases adj,
   fun lines res h => process_bucket_cycle_length_ge_two lines res h⟩

/-- Witness for C6 at a concrete bucket (`A|B|G|S`, `B|A|G|S`): the mutual
pair yields a result of length exactly 2. -/
theorem claim_C6_witness :
    process_bucket [[65, 124, 66, 124, 71, 124, 83],
      [66, 124, 65, 124, 71, 124, 83]] =
        some ⟨[71], [83], 2⟩ ∧
    2 ≤ (⟨[71], [83], 2⟩ : BucketResult).cycle_length :=
  ⟨by decide,
   claim_C6_no_length_one_cycles.2.2
     [[65, 124, 66, 124, 71, 124, 83], [66, 124, 65, 124, 71, 124, 83]]
     ⟨[71], [83], 2⟩ (by decide)⟩

/-- C7: every well-formed input line is appended to exactly the bucket whose
index is `crc32(claim_id ++ "|" ++ status_code) AND (B - 1)`: bucket `j`
receives precisely the well-formed lines hashing to `j` (with a newline),
and the bucket index depends only on the `(claim_id, status_code)` group
key, so all records of one group land in one bucket. -/
theorem claim_C7_bucket_routing :
    (∀ (lines : List ByteStr) (B : Nat) (j : Nat),
      (partition_to_buckets lines B).1 j =
        ((lines.filterMap wellFormedLine).filter
          (fun line => decide (bucketIdxOf B line = j))).map
            (fun line => line ++ [10])) ∧
    (∀ (B : Nat) (line : ByteStr),
      bucketIdxOf B line =
        crc32 ((splitLimit 124 3 line).getD 2 [] ++ [124] ++
          (splitLimit 124 3 line).getD 3 []) &&& (B - 1)) ∧
    (∀ (B : Nat) (l1 l2 : ByteStr),
      (splitLimit 124 3 l1).getD 2 [] = (splitLimit 124 3 l2).getD 2 [] →
      (splitLimit 124 3 l1).getD 3 [] = (splitLimit 124 3 l2).getD 3 [] →
      bucketIdxOf B l1 = bucketIdxOf B l2) := by
  refine ⟨partition_routing_spec, fun B line => rfl, ?_⟩
  intro B l1 l2 h2 h3
  rw [bucketIdxOf, bucketIdxOf, h2, h3]

/-- Witness for C7: two lines `a|b|G|S` and `c|d|G|S` share the group key
and hence the bucket index. -/
theorem claim_C7_witness :
    (splitLimit 124 3 [97, 124, 98, 124, 71, 124, 83]).getD 2 [] =
      (splitLimit 124 3 [99, 124, 100, 124, 71, 124, 83]).getD 2 [] ∧
    (splitLimit 124 3 [97, 124, 98, 124, 71, 124, 83]).getD 3 [] =
      (splitLimit 124 3 [99, 124, 100, 124, 71, 124, 83]).getD 3 [] ∧
    bucketIdxOf 8 [97, 124, 98, 124, 71, 124, 83] =
      bucketIdxOf 8 [99, 124, 100, 124, 71, 124, 83] :=
  ⟨by decide, by decide,
   claim_C7_bucket_routing.2.2 8 _ _ (by decide) (by decide)⟩

/-- C9: with capacity `C ≥ 1`, after `N` writes to distinct buckets the LRU
cache keeps exactly `min N C` handles open, namely the suffix of the write
sequence in write-recency order; the evicted handles are exactly the
`N - C` least-recently-written ones (the prefix of the write sequence). -/
theorem claim_C9_lru_cache (cap : Nat) (ws : List Nat) (hcap : 1 ≤ cap)
    (hnodup : ws.Nodup) :
    (ws.foldl (lruWrite cap) []).length = min ws.length cap ∧
    ws.foldl (lruWrite cap) [] = ws.drop (ws.length - cap) ∧
    ws = ws.take (ws.length - cap) ++ ws.foldl (lruWrite cap) [] := by
  obtain ⟨h1, h2, h3⟩ := lru_cache_spec cap ws hcap hnodup
  exact ⟨h2, h1, h3⟩

/-- Witness for C9: three distinct writes at capacity 2 leave the two most
recent handles open and evict the first. -/
theorem claim_C9_witness :
    (([5, 9, 7] : List Nat).foldl (lruWrite 2) []).length =
      min ([5, 9, 7] : List Nat).length 2 ∧
    ([5, 9, 7] : List Nat).foldl (lruWrite 2) [] =
      ([5, 9, 7] : List Nat).drop (([5, 9, 7] : List Nat).length - 2) ∧
    ([5, 9, 7] : List Nat) =
      ([5, 9, 7] : List Nat).take (([5, 9, 7] : List Nat).length - 2) ++
        ([5, 9, 7] : List Nat).foldl (lruWrite 2) [] :=
  claim_C9_lru_cache 2 [5, 9, 7] (by decide) (by decide)

/-- C8: inserting an additional copy of a record already present anywhere in
the record sequence leaves `build_grouped_adjacency` invariant: the grouped
adjacency map has the same edges, the per-group max out-degree map is
unchanged, and every group's final cycle length (computed with the
functional-classification flag `process_bucket` derives from the out-degree
map) is unchanged.  Duplicate edges do not change the final cycle length. -/
theorem claim_C8_duplicate_records (l1 l2 : List BucketRecord)
    (r : BucketRecord) (hmem : r ∈ l1 ++ l2) :
    (∀ g s d,
      hasEdge (build_grouped_adjacency (l1 ++ r :: l2)).1 g s d ↔
        hasEdge (build_grouped_adjacency (l1 ++ l2)).1 g s d) ∧
    (∀ g, degGet (build_grouped_adjacency (l1 ++ r :: l2)).2 g =
        degGet (build_grouped_adjacency (l1 ++ l2)).2 g) ∧
    (∀ g, find_longest_cycle
        (groupedGet (build_grouped_adjacency (l1 ++ r :: l2)).1 g)
        (decide (degGet (build_grouped_adjacency (l1 ++ r :: l2)).2 g ≤ 1)) =
      find_longest_cycle
        (groupedGet (build_grouped_adjacency (l1 ++ l2)).1 g)
        (decide (degGet (build_grouped_adjacency (l1 ++ l2)).2 g ≤ 1))) := by
  obtain ⟨h11, h12, h13, h14⟩ := buildInv_build (l1 ++ r :: l2)
  obtain ⟨h21, h22, h23, h24⟩ := buildInv_build (l1 ++ l2)
  have hedge : ∀ g s d,
      hasEdge (build_grouped_adjacency (l1 ++ r :: l2)).1 g s d ↔
        hasEdge (build_grouped_adjacency (l1 ++ l2)).1 g s d := by
    intro g s d
    rw [hasEdge_build_iff, hasEdge_build_iff]
    exact mem_insert_dup hmem
  have hdeg : ∀ g,
      degGet (build_grouped_adjacency (l1 ++ r :: l2)).2 g =
        degGet (build_grouped_adjacency (l1 ++ l2)).2 g := by
    intro g
    rw [h14 g, h24 g]
    exact maxDeg_congr _ _ (h11 g) (h21 g) (h12 g) (h22 g)
      (fun s d => hedge g s d)
  refine ⟨hedge, hdeg, ?_⟩
  intro g
  have hnil : groupedGet (build_grouped_adjacency (l1 ++ r :: l2)).1 g = [] ↔
      groupedGet (build_grouped_adjacency (l1 ++ l2)).1 g = [] := by
    constructor
    · intro h
      apply adj_eq_nil_of_no_edges _ (fun s => h23 g s)
      intro s d hd
      have hx : hasEdge (build_grouped_adjacency (l1 ++ r :: l2)).1 g s d :=
        (hedge g s d).2 hd
      unfold hasEdge at hx
      rw [h] at hx
      exact List.not_mem_nil d hx
    · intro h
      apply adj_eq_nil_of_no_edges _ (fun s => h13 g s)
      intro s d hd
      have hx : hasEdge (build_grouped_adjacency (l1 ++ l2)).1 g s d :=
        (hedge g s d).1 hd
      unfold hasEdge at hx
      rw [h] at hx
      exact List.not_mem_nil d hx
  rw [hdeg g]
  apply find_longest_cycle_congr _ _ (build_group_wf _ g) (build_group_wf _ g)
    (fun a b => hedge g a b) hnil
  intro hb
  have hle : degGet (build_grouped_adjacency (l1 ++ l2)).2 g ≤ 1 :=
    of_decide_eq_true hb
  constructor
  · apply functional_of_maxDeg_le_one
    rw [← h14 g, hdeg g]
    exact hle
  · apply functional_of_maxDeg_le_one
    rw [← h24 g]
    exact hle

/-- Witness for C8: duplicating the record `A|B|G|S` in a two-record bucket
leaves the cycle length of group `(G, S)` unchanged. -/
theorem claim_C8_witness :
    (([65], [66], [71], [83]) : BucketRecord) ∈
      ([(([65], [66], [71], [83]) : BucketRecord)] ++
        [(([66], [65], [71], [83]) : BucketRecord)]) ∧
    find_longest_cycle
        (groupedGet (build_grouped_adjacency
          ([(([65], [66], [71], [83]) : BucketRecord)] ++
            ([65], [66], [71], [83]) ::
              [(([66], [65], [71], [83]) : BucketRecord)])).1 ([71], [83]))
        (decide (degGet (build_grouped_adjacency
          ([(([65], [66], [71], [83]) : BucketRecord)] ++
            ([65], [66], [71], [83]) ::
              [(([66], [65], [71], [83]) : BucketRecord)])).2
          ([71], [83]) ≤ 1)) =
      find_longest_cycle
        (groupedGet (build_grouped_adjacency
          ([(([65], [66], [71], [83]) : BucketRecord)] ++
            [(([66], [65], [71], [83]) : BucketRecord)])).1 ([71], [83]))
        (decide (degGet (build_grouped_adjacency
          ([(([65], [66], [71], [83]) : BucketRecord)] ++
            [(([66], [65], [71], [83]) : BucketRecord)])).2
          ([71], [83]) ≤ 1)) :=
  ⟨by decide,
   (claim_C8_duplicate_records
      [(([65], [66], [71], [83]) : BucketRecord)]
      [(([66], [65], [71], [83]) : BucketRecord)]
      ([65], [66], [71], [83]) (by decide)).2.2 ([71], [83])⟩

/-- C10: on every bucket (as a list of raw lines), the monolithic
`process_bucket` of `src/graph.py` and the modular one of
`routing_cycle_detector` agree: both return nothing, or the same claim id,
status code and cycle length (one as a plain tuple, the other as a
`BucketResult`). -/
theorem claim_C10_processors_agree (lines : List ByteStr) :
    Monolithic.process_bucket lines =
      (process_bucket lines).map
        (fun r => (r.claim_id, r.status_code, r.cycle_length)) := by
  unfold Monolithic.process_bucket
  rw [mono_build_fold_eq]
  exact mono_select_fold_eq
    (build_grouped_adjacency (read_bucket_records lines))
    (build_grouped_adjacency (read_bucket_records lines)).1 none

end RoutingCycle
